import Mathlib

/-!
# Verification of the school-map navigation engine

A shallow embedding of the `MapEngine` core (graph stitching, accessibility-aware
Dijkstra path planning, floor layout, and viewport transforms) together with
proofs about the embedded definitions.  All definitions are translated from the
JavaScript source; numbers are modelled by `ℚ` (exact rationals) except where a
claim is specifically about the rotation trigonometry (`ℝ`) or about IEEE
special values (`JSNum`).
-/

set_option allowUnsafeReducibility true
attribute [semireducible] Rat.add Rat.sub Rat.mul Rat.div Rat.neg Rat.inv

namespace SchoolMap

/-! ## Association lists (JS `Map` / plain-object semantics: set overwrites in
place, get returns the stored value) -/

def alGet {α : Type} (m : List (String × α)) (k : String) : Option α :=
  match m with
  | [] => none
  | (k', v) :: rest => if k' = k then some v else alGet rest k

def alSet {α : Type} (m : List (String × α)) (k : String) (v : α) :
    List (String × α) :=
  match m with
  | [] => [(k, v)]
  | (k', v') :: rest => if k' = k then (k, v) :: rest else (k', v') :: alSet rest k v

def alGetI {α : Type} (m : List (Int × α)) (k : Int) : Option α :=
  match m with
  | [] => none
  | (k', v) :: rest => if k' = k then some v else alGetI rest k

def alSetI {α : Type} (m : List (Int × α)) (k : Int) (v : α) :
    List (Int × α) :=
  match m with
  | [] => [(k, v)]
  | (k', v') :: rest => if k' = k then (k, v) :: rest else (k', v') :: alSetI rest k v

/-! ## Data model

Input records mirror the per-floor JSON (`{id,x,y,type,name?,connectionId?}`
nodes and `{from,to,dist?,barrierFreeBlocked?}` edges).  `Option`/`Bool` model
absent or falsy fields: the engine only ever tests these fields for truthiness.
-/

structure InNode where
  id : String
  x : ℚ
  y : ℚ
  type : String
  name : Option String
  connectionId : Option String
deriving DecidableEq

structure InEdge where
  fromId : String
  toId : String
  dist : Option ℚ
  barrierFreeBlocked : Bool
deriving DecidableEq

/-- A node as stored in `idMap`/`globalNodes` by `loadAllData`:
`{...node, id: newId, originalId, floorId, x: node.x - xCrop, baseX, localY, y}`. -/
structure GNode where
  id : String
  originalId : String
  floorId : Int
  type : String
  name : Option String
  connectionId : Option String
  x : ℚ
  baseX : ℚ
  localY : ℚ
  y : ℚ
deriving DecidableEq

/-- A stored edge.  Intra-floor edges are created by `loadAllData` as
`{from, to, dist, floorId}` (no `type`, no `barrierFreeBlocked`: those input
fields are not copied); synthetic transfer edges are created by
`buildGlobalGraph` as `{from, to, dist, type}` (no `floorId`). -/
structure GEdge where
  fromId : String
  toId : String
  dist : ℚ
  type : Option String
  floorId : Option Int
deriving DecidableEq

/-- An adjacency-cache entry `{to: e.to, dist: e.dist, type: e.type}` as pushed
by `buildGlobalGraph`.  These are the only fields an entry carries. -/
structure AdjEntry where
  toId : String
  dist : ℚ
  type : Option String
deriving DecidableEq

/-- Per-floor visual state `{scale, opacity, y}` kept in `floorVisuals`. -/
structure FloorVisual where
  scale : ℚ
  opacity : ℚ
  y : ℚ
deriving DecidableEq

/-- One entry of the static floor configuration, with the dimensions of the
floor image as loaded (`0` until/unless the image has loaded, mirroring a DOM
image's `width`/`height` of `0`, which is falsy). -/
structure FloorConf where
  id : Int
  imgWidth : ℚ
  imgHeight : ℚ
deriving DecidableEq

structure FloorData where
  nodes : List InNode
  edges : List InEdge
deriving DecidableEq

/-- `AppConfig.FLOORS` ids from the configuration file. -/
def appConfigFloorIds : List Int := [1, 2, 3, 4]

/-- `AppConfig.FLOOR_GAP`. -/
def floorGap : ℚ := 200

/-! ## C6 — rotation-aware pan (`applyRotatedPan`) -/

/-- The viewport transform `{k, x, y}` over the reals, for the trigonometric
pan claim. -/
structure RTransform where
  k : ℝ
  x : ℝ
  y : ℝ

/-- `applyRotatedPan(dx, dy)`: converts a screen-space drag delta into a
world-space translation delta using the inverse rotation, then rebuilds the
transform as `translate(x + dtx, y + dty).scale(k)`. -/
noncomputable def applyRotatedPan (rotation : ℝ) (tr : RTransform) (dx dy : ℝ) :
    RTransform :=
  let rad := rotation * Real.pi / 180
  let c := Real.cos rad
  let s := Real.sin rad
  let dtx := dx * c + dy * s
  let dty := -dx * s + dy * c
  { k := tr.k, x := tr.x + dtx, y := tr.y + dty }

/-! ## C7 — shortest angular path (`setRotation` / `fitToPath` rotation delta) -/

/-- Truncation toward zero, as performed by JavaScript's `%` operator on the
quotient. -/
def truncQ (q : ℚ) : ℤ := if 0 ≤ q then ⌊q⌋ else -⌊-q⌋

/-- JavaScript remainder `a % b` for finite operands: `a - b * trunc(a / b)`. -/
def jsMod (a b : ℚ) : ℚ := a - b * truncQ (a / b)

/-- The shortest-path rotation delta computed by `setRotation` and by the
rotation transition inside `fitToPath`:
`delta = (target - current) % 360; if (delta > 180) delta -= 360;
if (delta < -180) delta += 360`. -/
def shortestDelta (current target : ℚ) : ℚ :=
  let d0 := jsMod (target - current) 360
  let d1 := if d0 > 180 then d0 - 360 else d0
  let d2 := if d1 < -180 then d1 + 360 else d1
  d2

/-- The final rotation target `current + delta`. -/
def setRotationTarget (current target : ℚ) : ℚ :=
  current + shortestDelta current target

/-! Helper lemmas for the JS remainder. -/

theorem jsMod_sub_self (a b : ℚ) : a - jsMod a b = b * truncQ (a / b) := by
  simp [jsMod]

theorem truncQ_le_of_nonneg {q : ℚ} (h : 0 ≤ q) : (truncQ q : ℚ) ≤ q := by
  simp only [truncQ, if_pos h]
  exact Int.floor_le q

theorem lt_truncQ_add_one_of_nonneg {q : ℚ} (h : 0 ≤ q) :
    q < (truncQ q : ℚ) + 1 := by
  simp only [truncQ, if_pos h]
  exact Int.lt_floor_add_one q

theorem truncQ_neg (q : ℚ) : truncQ (-q) = -truncQ q := by
  rcases lt_trichotomy q 0 with h | h | h
  · have h1 : ¬(0 : ℚ) ≤ q := not_le.mpr h
    have h2 : (0 : ℚ) ≤ -q := by linarith
    simp [truncQ, h1, h2]
  · subst h; simp [truncQ]
  · have h1 : (0 : ℚ) ≤ q := le_of_lt h
    have h2 : ¬(0 : ℚ) ≤ -q := by
      simp only [not_le]
      linarith
    simp [truncQ, h1, h2]

/-- `|a % b| < b` for a positive modulus. -/
theorem abs_jsMod_lt (a : ℚ) {b : ℚ} (hb : 0 < b) : |jsMod a b| < b := by
  rcases le_or_lt 0 a with ha | ha
  · have hq : 0 ≤ a / b := div_nonneg ha (le_of_lt hb)
    have h1 : (truncQ (a / b) : ℚ) ≤ a / b := truncQ_le_of_nonneg hq
    have h2 : a / b < (truncQ (a / b) : ℚ) + 1 := lt_truncQ_add_one_of_nonneg hq
    have hlow : 0 ≤ jsMod a b := by
      have := mul_le_mul_of_nonneg_left h1 (le_of_lt hb)
      rw [mul_div_cancel₀ a (ne_of_gt hb)] at this
      simp only [jsMod]
      linarith
    have hup : jsMod a b < b := by
      have := mul_lt_mul_of_pos_left h2 hb
      rw [mul_div_cancel₀ a (ne_of_gt hb)] at this
      simp only [jsMod]
      linarith
    rw [abs_of_nonneg hlow]
    exact hup
  · have ha' : 0 ≤ -a := by linarith
    have hq : 0 ≤ (-a) / b := div_nonneg ha' (le_of_lt hb)
    have h1 : (truncQ (-a / b) : ℚ) ≤ -a / b := truncQ_le_of_nonneg hq
    have h2 : -a / b < (truncQ (-a / b) : ℚ) + 1 := lt_truncQ_add_one_of_nonneg hq
    have hneg : truncQ (a / b) = -truncQ (-a / b) := by
      have : a / b = -(-a / b) := by ring
      rw [this, truncQ_neg]
    have hlow : jsMod a b ≤ 0 := by
      have := mul_le_mul_of_nonneg_left h1 (le_of_lt hb)
      rw [mul_div_cancel₀ (-a) (ne_of_gt hb)] at this
      simp only [jsMod, hneg]
      push_cast
      linarith
    have hup : -b < jsMod a b := by
      have := mul_lt_mul_of_pos_left h2 hb
      rw [mul_div_cancel₀ (-a) (ne_of_gt hb)] at this
      simp only [jsMod, hneg]
      push_cast
      linarith
    rw [abs_of_nonpos hlow]
    linarith


/-- C6: for every rotation angle and screen drag delta `(dx, dy)`, the
rotation-aware pan adds the inverse-rotation world delta
`(dx*cos θ + dy*sin θ, -dx*sin θ + dy*cos θ)` (θ the rotation in radians) to the
translation and leaves the scale unchanged; at rotation 90° a drag of
`(10, 0)` yields the world delta `(0, -10)`. -/
theorem applyRotatedPan_spec (rotation : ℝ) (tr : RTransform) (dx dy : ℝ) :
    (applyRotatedPan rotation tr dx dy).x
        = tr.x + (dx * Real.cos (rotation * Real.pi / 180)
            + dy * Real.sin (rotation * Real.pi / 180)) ∧
    (applyRotatedPan rotation tr dx dy).y
        = tr.y + (-dx * Real.sin (rotation * Real.pi / 180)
            + dy * Real.cos (rotation * Real.pi / 180)) ∧
    (applyRotatedPan rotation tr dx dy).k = tr.k ∧
    (applyRotatedPan 90 tr 10 0).x = tr.x + 0 ∧
    (applyRotatedPan 90 tr 10 0).y = tr.y + (-10) := by
  have hrad : (90 : ℝ) * Real.pi / 180 = Real.pi / 2 := by ring
  refine ⟨rfl, rfl, rfl, ?_, ?_⟩
  · show tr.x + (10 * Real.cos ((90 : ℝ) * Real.pi / 180)
        + 0 * Real.sin ((90 : ℝ) * Real.pi / 180)) = tr.x + 0
    rw [hrad, Real.cos_pi_div_two]
    ring
  · show tr.y + (-(10 : ℝ) * Real.sin ((90 : ℝ) * Real.pi / 180)
        + 0 * Real.cos ((90 : ℝ) * Real.pi / 180)) = tr.y + (-10)
    rw [hrad, Real.sin_pi_div_two]
    ring

/-- C7: every rotation transition computes its final target as
`current + delta` with `delta = ((target - current) mod 360)` adjusted by
`±360`; the final target is congruent to the requested target modulo 360 and
within 180° of the current rotation, and for current 170°, target −170° the
delta is +20° (final target 190°). -/
theorem setRotationTarget_spec (current target : ℚ) :
    (∃ k : ℤ, setRotationTarget current target - target = 360 * k) ∧
    |setRotationTarget current target - current| ≤ 180 ∧
    shortestDelta 170 (-170) = 20 ∧ setRotationTarget 170 (-170) = 190 := by
  have h360 : (0 : ℚ) < 360 := by norm_num
  have habs : |jsMod (target - current) 360| < 360 := abs_jsMod_lt _ h360
  rw [abs_lt] at habs
  have hsub : (target - current) - jsMod (target - current) 360
      = 360 * truncQ ((target - current) / 360) := jsMod_sub_self _ _
  have hdelta : ∃ m : ℤ,
      shortestDelta current target - jsMod (target - current) 360 = 360 * m ∧
      |shortestDelta current target| ≤ 180 := by
    by_cases h1 : jsMod (target - current) 360 > 180
    · refine ⟨-1, ?_, ?_⟩
      · simp only [shortestDelta, if_pos h1]
        have : ¬(jsMod (target - current) 360 - 360 < -180) := by linarith
        rw [if_neg this]
        push_cast
        ring
      · simp only [shortestDelta, if_pos h1]
        have : ¬(jsMod (target - current) 360 - 360 < -180) := by linarith
        rw [if_neg this, abs_le]
        constructor <;> linarith
    · by_cases h2 : jsMod (target - current) 360 < -180
      · refine ⟨1, ?_, ?_⟩
        · simp only [shortestDelta, if_neg h1, if_pos h2]
          push_cast
          ring
        · simp only [shortestDelta, if_neg h1, if_pos h2, abs_le]
          constructor <;> linarith
      · refine ⟨0, ?_, ?_⟩
        · simp only [shortestDelta, if_neg h1, if_neg h2]
          push_cast
          ring
        · simp only [shortestDelta, if_neg h1, if_neg h2, abs_le]
          constructor <;> linarith
  obtain ⟨m, hm, hb⟩ := hdelta
  refine ⟨⟨m - truncQ ((target - current) / 360), ?_⟩, ?_, ?_, ?_⟩
  · have : setRotationTarget current target - target
        = (shortestDelta current target - jsMod (target - current) 360)
          - ((target - current) - jsMod (target - current) 360) := by
      simp only [setRotationTarget]
      ring
    rw [this, hm, hsub]
    push_cast
    ring
  · simpa [setRotationTarget] using hb
  · show shortestDelta 170 (-170) = 20
    have htr : truncQ ((-170 - 170 : ℚ) / 360) = 0 := by
      have hne : ¬((0 : ℚ) ≤ (-170 - 170 : ℚ) / 360) := by norm_num
      rw [truncQ, if_neg hne]
      norm_num
    have hmod : jsMod (-170 - 170 : ℚ) 360 = -340 := by
      rw [jsMod, htr]
      norm_num
    simp only [shortestDelta]
    rw [show ((-170 : ℚ) - 170) = (-170 - 170 : ℚ) by norm_num, hmod]
    norm_num
  · show setRotationTarget 170 (-170) = 190
    have htr : truncQ ((-170 - 170 : ℚ) / 360) = 0 := by
      have hne : ¬((0 : ℚ) ≤ (-170 - 170 : ℚ) / 360) := by norm_num
      rw [truncQ, if_neg hne]
      norm_num
    have hmod : jsMod (-170 - 170 : ℚ) 360 = -340 := by
      rw [jsMod, htr]
      norm_num
    simp only [setRotationTarget, shortestDelta]
    rw [show ((-170 : ℚ) - 170) = (-170 - 170 : ℚ) by norm_num, hmod]
    norm_num


/-! ## Engine state

The fields of the long-lived `MapEngine` object that the planner, graph
builder and layout code read or write.  (The camera transform is modelled
separately, with the numeric domain each transform claim needs.)
-/

structure EngineState where
  floorsConfig : List FloorConf
  idMap : List (String × GNode)
  globalNodes : List GNode
  globalEdges : List GEdge
  adj : List (String × List AdjEntry)
  floorVisuals : List (Int × FloorVisual)
  totalHeight : ℚ
  accessibilityMode : Bool
  path : List String
  startNode : Option GNode
deriving DecidableEq

def getNode (st : EngineState) (id : String) : Option GNode := alGet st.idMap id

/-! ## Data loading (`loadAllData`, the later definition in the class, which
overrides the earlier one).  Floors are processed in configuration order. -/

/-- `(img && img.height) ? img.height : 1000` — an unloaded image has falsy
height `0`. -/
def effImgHeight (c : FloorConf) : ℚ := if c.imgHeight = 0 then 1000 else c.imgHeight

/-- Crop offset: `(img.width - 940) / 2` when the image is wider than the
940px target. -/
def cropXOf (c : FloorConf) : ℚ := if 940 < c.imgWidth then (c.imgWidth - 940) / 2 else 0

/-- One step of the stable descending sort `[...].sort((a, b) => b.id - a.id)`. -/
def insertDescFloor (c : FloorConf) : List FloorConf → List FloorConf
  | [] => [c]
  | d :: rest => if d.id < c.id then c :: d :: rest else d :: insertDescFloor c rest

def sortFloorsDesc (l : List FloorConf) : List FloorConf :=
  l.foldl (fun acc c => insertDescFloor c acc) []

/-- Floor stacking offsets: `floorOffsets[conf.id] = currentY;
currentY += height + gap` over the descending-sorted floors. -/
def computeOffsets : List FloorConf → ℚ → List (Int × ℚ) × ℚ
  | [], y => ([], y)
  | c :: rest, y =>
    let (tail, fin) := computeOffsets rest (y + effImgHeight c + floorGap)
    ((c.id, y) :: tail, fin)

/-- The global id `${conf.id}_${node.id}`. -/
def nodeKey (floorId : Int) (localId : String) : String :=
  toString floorId ++ "_" ++ localId

/-- The node record stored in `idMap` (and pushed onto `globalNodes`). -/
def mkGNode (c : FloorConf) (yOffset xc : ℚ) (n : InNode) : GNode :=
  { id := nodeKey c.id n.id, originalId := n.id, floorId := c.id,
    type := n.type, name := n.name, connectionId := n.connectionId,
    x := n.x - xc, baseX := n.x - xc, localY := n.y, y := n.y + yOffset }

def loadFloorNodes (c : FloorConf) (yOffset xc : ℚ) (ns : List InNode)
    (st : EngineState) : EngineState :=
  ns.foldl (fun st n =>
    let g := mkGNode c yOffset xc n
    { st with idMap := alSet st.idMap g.id g,
              globalNodes := st.globalNodes ++ [g] }) st

/-- Edge loading.  An edge is stored only if both endpoint keys are present in
`idMap`; the stored record is `{from, to, dist, floorId}` — the input fields
`type` and `barrierFreeBlocked` are not copied onto it. -/
def loadFloorEdges (c : FloorConf) (es : List InEdge) (st : EngineState) :
    EngineState :=
  es.foldl (fun st e =>
    let fromId := nodeKey c.id e.fromId
    let toId := nodeKey c.id e.toId
    if (alGet st.idMap fromId).isSome && (alGet st.idMap toId).isSome then
      { st with globalEdges := st.globalEdges ++
          [{ fromId := fromId, toId := toId, dist := e.dist.getD 1,
             type := none, floorId := some c.id }] }
    else st) st

/-- `loadAllData` up to (but not including) `buildGlobalGraph` and the initial
`updateFloorLayout`. -/
def loadData (cfg : List (FloorConf × FloorData)) : EngineState :=
  let confs := cfg.map (fun p => p.1)
  let offs := (computeOffsets (sortFloorsDesc confs) 0).1
  let st0 : EngineState :=
    { floorsConfig := confs, idMap := [], globalNodes := [], globalEdges := [],
      adj := [], floorVisuals := [],
      totalHeight := (computeOffsets (sortFloorsDesc confs) 0).2,
      accessibilityMode := false, path := [], startNode := none }
  cfg.foldl (fun st p =>
    let yOffset := (alGetI offs p.1.id).getD 0
    loadFloorEdges p.1 p.2.edges
      (loadFloorNodes p.1 yOffset (cropXOf p.1) p.2.nodes st)) st0

/-! ## Graph stitching (`buildGlobalGraph`) -/

/-- JS truthiness of an optional string field. -/
def truthy : Option String → Bool
  | some s => !(s = "")
  | none => false

/-- The connection key used to group nodes: the `name` for named
stairs/elevator nodes, else a truthy `connectionId`, else nothing. -/
def connKey (n : GNode) : Option String :=
  if truthy n.name && (n.type = "stairs" || n.type = "elevator") then n.name
  else if truthy n.connectionId then n.connectionId
  else none

def addGroup (k : String) (n : GNode) :
    List (String × List GNode) → List (String × List GNode)
  | [] => [(k, [n])]
  | (k', ns) :: rest =>
    if k' = k then (k', ns ++ [n]) :: rest else (k', ns) :: addGroup k n rest

/-- `connectionMap`, in insertion order. -/
def connGroups (nodes : List GNode) : List (String × List GNode) :=
  nodes.foldl (fun m n =>
    match connKey n with
    | some k => addGroup k n m
    | none => m) []

/-- All index pairs `i < j` of a list, in the double-loop order of the source. -/
def listPairs {α : Type} : List α → List (α × α)
  | [] => []
  | x :: xs => xs.map (fun y => (x, y)) ++ listPairs xs

def transferTypeOf (n1 n2 : GNode) : String :=
  if n1.type = "elevator" && n2.type = "elevator" then "elevator"
  else if n1.type = "stairs" && n2.type = "stairs" then "stairs"
  else "transfer"

/-- `Math.abs`. -/
def jsAbs (q : ℚ) : ℚ := if q < 0 then -q else q

/-- `Math.abs(f1.id - f2.id)` when both floors are found in the configured
floor list, else the fallback `1`. -/
def floorDistOf (floors : List Int) (n1 n2 : GNode) : ℚ :=
  if n1.floorId ∈ floors ∧ n2.floorId ∈ floors
  then jsAbs ((n1.floorId : ℚ) - (n2.floorId : ℚ)) else 1

def mkTransferEdge (floors : List Int) (p : GNode × GNode) : GEdge :=
  { fromId := p.1.id, toId := p.2.id, dist := floorDistOf floors p.1 p.2 * 150,
    type := some (transferTypeOf p.1 p.2), floorId := none }

/-- All synthetic cross-floor transfer edges generated by `buildGlobalGraph`. -/
def transferEdgesOf (floors : List Int) (nodes : List GNode) : List GEdge :=
  ((connGroups nodes).map (fun g =>
    if 1 < g.2.length then (listPairs g.2).map (mkTransferEdge floors) else [])).flatten

/-- `this.adj = {}; nodes.forEach(n => this.adj[n.id] = [])`. -/
def adjInit (nodes : List GNode) : List (String × List AdjEntry) :=
  nodes.foldl (fun m n => alSet m n.id []) []

def adjEnsure (m : List (String × List AdjEntry)) (k : String) :
    List (String × List AdjEntry) :=
  if (alGet m k).isSome then m else m ++ [(k, [])]

def adjPushEntry (k : String) (e : AdjEntry) :
    List (String × List AdjEntry) → List (String × List AdjEntry)
  | [] => [(k, [e])]
  | (k', es) :: rest =>
    if k' = k then (k', es ++ [e]) :: rest else (k', es) :: adjPushEntry k e rest

/-- The adjacency cache: every stored edge contributes the two directed entries
`{to: e.to, dist: e.dist, type: e.type}` and `{to: e.from, ...}`. -/
def buildAdj (nodes : List GNode) (edges : List GEdge) :
    List (String × List AdjEntry) :=
  edges.foldl (fun m e =>
    let m1 := adjEnsure m e.fromId
    let m2 := adjEnsure m1 e.toId
    let m3 := adjPushEntry e.fromId ⟨e.toId, e.dist, e.type⟩ m2
    adjPushEntry e.toId ⟨e.fromId, e.dist, e.type⟩ m3) (adjInit nodes)

/-- `buildGlobalGraph`: append the synthetic transfer edges (grouping consults
the global `AppConfig.FLOORS`) and rebuild the adjacency cache. -/
def buildGlobalGraph (st : EngineState) : EngineState :=
  let newEdges := st.globalEdges ++ transferEdgesOf appConfigFloorIds st.globalNodes
  { st with globalEdges := newEdges, adj := buildAdj st.globalNodes newEdges }

/-! ## Floor layout (`updateFloorLayout`) -/

/-- The intermediate floors: when the path's first and last nodes resolve to
different floors, every configured floor strictly between them. -/
def intermediateFloors (st : EngineState) (pathNodes : List String) : List Int :=
  match pathNodes with
  | [] => []
  | h :: t =>
    match getNode st h, getNode st (t.getLastD h) with
    | some sN, some eN =>
      if sN.floorId ≠ eN.floorId then
        appConfigFloorIds.filter (fun f =>
          decide (min sN.floorId eN.floorId < f ∧ f < max sN.floorId eN.floorId))
      else []
    | _, _ => []

def floorScaleOf (inter : List Int) (fid : Int) : ℚ :=
  if fid ∈ inter then 6/10 else 1

def floorOpacityOf (inter : List Int) (fid : Int) : ℚ :=
  if fid ∈ inter then 3/10 else 1

def floorGapOf (inter : List Int) (fid : Int) : ℚ :=
  if fid ∈ inter then floorGap * (1/10) else floorGap

/-- The stacking loop: each floor records `{scale, opacity, y: currentY}` and
advances `currentY` by `baseHeight * scale + gap`. -/
def stackFloors (inter : List Int) :
    List FloorConf → ℚ → List (Int × FloorVisual) × ℚ
  | [], y => ([], y)
  | c :: rest, y =>
    let sc := floorScaleOf inter c.id
    let (tail, fin) := stackFloors inter rest
      (y + effImgHeight c * sc + floorGapOf inter c.id)
    ((c.id, ⟨sc, floorOpacityOf inter c.id, y⟩) :: tail, fin)

/-- The per-node world-coordinate update
`node.y = node.localY * vis.scale + vis.y; node.x = node.baseX * vis.scale`
(nodes built by `loadAllData` always carry `baseX`). -/
def updNodeCoords (visuals : List (Int × FloorVisual)) (n : GNode) : GNode :=
  match alGetI visuals n.floorId with
  | some vis => { n with y := n.localY * vis.scale + vis.y, x := n.baseX * vis.scale }
  | none => n

/-- `updateFloorLayout(pathNodes)`.  Defaults are installed for every
`AppConfig.FLOORS` entry, then overwritten by the stacking loop over the
descending-sorted instance configuration.  The coordinate update is applied to
`globalNodes` and to the `idMap` values, which alias the same objects in the
source. -/
def updateFloorLayout (st : EngineState) (pathNodes : List String) : EngineState :=
  let inter := intermediateFloors st pathNodes
  let defaults := appConfigFloorIds.foldl
    (fun m f => alSetI m f ⟨1, 1, 0⟩) ([] : List (Int × FloorVisual))
  let stacked := stackFloors inter (sortFloorsDesc st.floorsConfig) 0
  let visuals := stacked.1.foldl (fun m e => alSetI m e.1 e.2) defaults
  { st with floorVisuals := visuals, totalHeight := stacked.2,
            globalNodes := st.globalNodes.map (updNodeCoords visuals),
            idMap := st.idMap.map (fun p => (p.1, updNodeCoords visuals p.2)) }

/-- The full startup load:
`loadAllData = load floors; buildGlobalGraph(); updateFloorLayout([])`. -/
def loadAllData (cfg : List (FloorConf × FloorData)) : EngineState :=
  updateFloorLayout (buildGlobalGraph (loadData cfg)) []


/-! ## Association-list lemmas -/

theorem alGet_alSet_self {α : Type} (m : List (String × α)) (k : String) (v : α) :
    alGet (alSet m k v) k = some v := by
  induction m with
  | nil => simp [alSet, alGet]
  | cons p rest ih =>
    obtain ⟨k0, v0⟩ := p
    by_cases h : k0 = k
    · simp [alSet, alGet, h]
    · simp [alSet, alGet, h, ih]

theorem alGet_alSet_ne {α : Type} (m : List (String × α)) (k k' : String) (v : α)
    (h : k ≠ k') : alGet (alSet m k v) k' = alGet m k' := by
  have h' : ¬(k = k') := h
  induction m with
  | nil => simp [alSet, alGet, h']
  | cons p rest ih =>
    obtain ⟨k0, v0⟩ := p
    by_cases h0 : k0 = k
    · subst h0
      simp [alSet, alGet, h']
    · simp only [alSet, if_neg h0]
      by_cases h1 : k0 = k'
      · simp [alGet, h1]
      · simp [alGet, h1, ih]

theorem alGet_isSome_alSet {α : Type} (m : List (String × α)) (k k' : String) (v : α)
    (h : (alGet m k').isSome) : (alGet (alSet m k v) k').isSome := by
  by_cases hk : k = k'
  · subst hk
    simp [alGet_alSet_self]
  · rwa [alGet_alSet_ne m k k' v hk]

theorem alGet_append_single {α : Type} (m : List (String × α)) (k k' : String)
    (v : α) :
    alGet (m ++ [(k, v)]) k' =
      match alGet m k' with
      | some w => some w
      | none => if k = k' then some v else none := by
  induction m with
  | nil => simp [alGet]
  | cons p rest ih =>
    obtain ⟨k0, v0⟩ := p
    by_cases h0 : k0 = k'
    · simp [alGet, h0]
    · simp [alGet, h0, ih]

/-! ## Membership facts about connection groups and transfer edges -/

theorem addGroup_members {k : String} {n : GNode} {P : GNode → Prop}
    (m : List (String × List GNode))
    (hm : ∀ g, g ∈ m → ∀ x, x ∈ g.2 → P x) (hn : P n) :
    ∀ g, g ∈ addGroup k n m → ∀ x, x ∈ g.2 → P x := by
  induction m with
  | nil =>
    intro g hg x hx
    simp only [addGroup, List.mem_singleton] at hg
    subst hg
    simp only [List.mem_singleton] at hx
    subst hx
    exact hn
  | cons p rest ih =>
    obtain ⟨k0, ns0⟩ := p
    intro g hg x hx
    by_cases h0 : k0 = k
    · simp only [addGroup, if_pos h0, List.mem_cons] at hg
      rcases hg with hg | hg
      · subst hg
        simp only [List.mem_append, List.mem_singleton] at hx
        rcases hx with hx | hx
        · exact hm (k0, ns0) (List.mem_cons_self _ _) x hx
        · subst hx; exact hn
      · exact hm g (List.mem_cons_of_mem _ hg) x hx
    · simp only [addGroup, if_neg h0, List.mem_cons] at hg
      rcases hg with hg | hg
      · subst hg
        exact hm (k0, ns0) (List.mem_cons_self _ _) x hx
      · exact ih (fun g hg => hm g (List.mem_cons_of_mem _ hg)) g hg x hx

/-- The fold step of `connGroups`. -/
def groupStep (m : List (String × List GNode)) (n : GNode) :
    List (String × List GNode) :=
  match connKey n with
  | some k => addGroup k n m
  | none => m

theorem connGroups_eq_foldl (nodes : List GNode) :
    connGroups nodes = nodes.foldl groupStep [] := rfl

theorem groupStep_members {P : GNode → Prop} {m : List (String × List GNode)}
    {n : GNode} (hm : ∀ g, g ∈ m → ∀ x, x ∈ g.2 → P x) (hn : P n) :
    ∀ g, g ∈ groupStep m n → ∀ x, x ∈ g.2 → P x := by
  unfold groupStep
  rcases hk : connKey n with _ | k
  · exact hm
  · exact addGroup_members m hm hn

theorem connGroups_members (nodes : List GNode) :
    ∀ g, g ∈ connGroups nodes → ∀ x, x ∈ g.2 → x ∈ nodes := by
  rw [connGroups_eq_foldl]
  have main : ∀ (l : List GNode) (m : List (String × List GNode)),
      (∀ g, g ∈ m → ∀ x, x ∈ g.2 → x ∈ nodes) →
      (∀ n, n ∈ l → n ∈ nodes) →
      ∀ g, g ∈ l.foldl groupStep m → ∀ x, x ∈ g.2 → x ∈ nodes := by
    intro l
    induction l with
    | nil =>
      intro m hm hl g hg x hx
      simp only [List.foldl_nil] at hg
      exact hm g hg x hx
    | cons n rest ih =>
      intro m hm hl g hg x hx
      simp only [List.foldl_cons] at hg
      exact ih (groupStep m n)
        (groupStep_members hm (hl n (List.mem_cons_self _ _)))
        (fun y hy => hl y (List.mem_cons_of_mem _ hy)) g hg x hx
  exact main nodes [] (by simp) (fun n hn => hn)

theorem listPairs_mem {α : Type} {l : List α} {p : α × α} (h : p ∈ listPairs l) :
    p.1 ∈ l ∧ p.2 ∈ l := by
  induction l with
  | nil => simp [listPairs] at h
  | cons x xs ih =>
    simp only [listPairs, List.mem_append, List.mem_map] at h
    rcases h with ⟨y, hy, hp⟩ | h
    · rw [← hp]
      exact ⟨List.mem_cons_self _ _, List.mem_cons_of_mem _ hy⟩
    · obtain ⟨h1, h2⟩ := ih h
      exact ⟨List.mem_cons_of_mem _ h1, List.mem_cons_of_mem _ h2⟩

/-- Every synthetic transfer edge joins two nodes of the input list. -/
theorem transferEdgesOf_endpoints (floors : List Int) (nodes : List GNode) :
    ∀ e, e ∈ transferEdgesOf floors nodes →
      ∃ n1, n1 ∈ nodes ∧ ∃ n2, n2 ∈ nodes ∧ e.fromId = n1.id ∧ e.toId = n2.id := by
  intro e he
  simp only [transferEdgesOf, List.mem_flatten, List.mem_map] at he
  obtain ⟨l, ⟨g, hg, hl⟩, hel⟩ := he
  rw [← hl] at hel
  by_cases hlen : 1 < g.2.length
  · rw [if_pos hlen] at hel
    simp only [List.mem_map] at hel
    obtain ⟨pr, hpr, hpe⟩ := hel
    rw [← hpe]
    obtain ⟨h1, h2⟩ := listPairs_mem hpr
    exact ⟨pr.1, connGroups_members nodes g hg pr.1 h1,
           pr.2, connGroups_members nodes g hg pr.2 h2, rfl, rfl⟩
  · rw [if_neg hlen] at hel
    simp at hel

/-- For every connection group of size ≥ 2 and every ordered pair of its
members, the generated transfer-edge list contains the corresponding clique
edge. -/
theorem transferEdgesOf_mem_of_pair (floors : List Int) (nodes : List GNode)
    {g : String × List GNode} (hg : g ∈ connGroups nodes) (hlen : 1 < g.2.length)
    {pr : GNode × GNode} (hpr : pr ∈ listPairs g.2) :
    mkTransferEdge floors pr ∈ transferEdgesOf floors nodes := by
  simp only [transferEdgesOf, List.mem_flatten]
  refine ⟨(listPairs g.2).map (mkTransferEdge floors), ?_, ?_⟩
  · simp only [List.mem_map]
    exact ⟨g, hg, by rw [if_pos hlen]⟩
  · exact List.mem_map_of_mem _ hpr

/-! ## Adjacency-cache lemmas -/

def lookupAdj (adj : List (String × List AdjEntry)) (k : String) : List AdjEntry :=
  (alGet adj k).getD []

theorem lookupAdj_adjPush_self (m : List (String × List AdjEntry)) (k : String)
    (e : AdjEntry) : lookupAdj (adjPushEntry k e m) k = lookupAdj m k ++ [e] := by
  induction m with
  | nil => simp [adjPushEntry, lookupAdj, alGet]
  | cons p rest ih =>
    obtain ⟨k0, es0⟩ := p
    by_cases h0 : k0 = k
    · simp [adjPushEntry, if_pos h0, lookupAdj, alGet, h0]
    · simp only [adjPushEntry, if_neg h0, lookupAdj, alGet, h0, if_false,
        Bool.false_eq_true]
      exact ih

theorem lookupAdj_adjPush_ne (m : List (String × List AdjEntry)) (k k' : String)
    (e : AdjEntry) (h : k ≠ k') :
    lookupAdj (adjPushEntry k e m) k' = lookupAdj m k' := by
  have h' : ¬(k = k') := h
  induction m with
  | nil => simp [adjPushEntry, lookupAdj, alGet, h']
  | cons p rest ih =>
    obtain ⟨k0, es0⟩ := p
    by_cases h0 : k0 = k
    · subst h0
      simp [adjPushEntry, lookupAdj, alGet, h']
    · simp only [adjPushEntry, if_neg h0]
      by_cases h1 : k0 = k'
      · simp [lookupAdj, alGet, h1]
      · simp only [lookupAdj, alGet, if_neg h1]
        exact ih

theorem alGet_adjEnsure_absent (m : List (String × List AdjEntry)) (k : String)
    (hnone : alGet m k = none) : alGet (adjEnsure m k) k = some [] := by
  unfold adjEnsure
  rw [hnone]
  simp only [Option.isSome_none, Bool.false_eq_true, if_neg, not_false_eq_true]
  rw [alGet_append_single, hnone]
  simp

theorem lookupAdj_adjEnsure (m : List (String × List AdjEntry)) (k k' : String) :
    lookupAdj (adjEnsure m k) k' = lookupAdj m k' := by
  unfold adjEnsure
  rcases hget : alGet m k with _ | es
  · simp only [hget, Option.isSome_none, Bool.false_eq_true, if_neg,
      not_false_eq_true]
    unfold lookupAdj
    rw [alGet_append_single]
    rcases hget' : alGet m k' with _ | es'
    · by_cases hk : k = k'
      · subst hk
        simp
      · simp [hk]
    · simp
  · simp [hget]

/-- One edge-processing step of `buildAdj`. -/
def adjStep (m : List (String × List AdjEntry)) (e : GEdge) :
    List (String × List AdjEntry) :=
  adjPushEntry e.toId ⟨e.fromId, e.dist, e.type⟩
    (adjPushEntry e.fromId ⟨e.toId, e.dist, e.type⟩
      (adjEnsure (adjEnsure m e.fromId) e.toId))

theorem buildAdj_eq_foldl (nodes : List GNode) (edges : List GEdge) :
    buildAdj nodes edges = edges.foldl adjStep (adjInit nodes) := rfl

theorem lookupAdj_adjStep_mono {m : List (String × List AdjEntry)} {k : String}
    {x : AdjEntry} (e : GEdge) (h : x ∈ lookupAdj m k) :
    x ∈ lookupAdj (adjStep m e) k := by
  unfold adjStep
  by_cases h1 : e.toId = k
  · subst h1
    rw [lookupAdj_adjPush_self]
    by_cases h2 : e.fromId = e.toId
    · rw [h2, lookupAdj_adjPush_self, lookupAdj_adjEnsure, lookupAdj_adjEnsure]
      simp only [List.mem_append, List.mem_singleton]
      exact Or.inl (Or.inl h)
    · rw [lookupAdj_adjPush_ne _ _ _ _ h2, lookupAdj_adjEnsure, lookupAdj_adjEnsure]
      simp only [List.mem_append]
      exact Or.inl h
  · rw [lookupAdj_adjPush_ne _ _ _ _ h1]
    by_cases h2 : e.fromId = k
    · subst h2
      rw [lookupAdj_adjPush_self, lookupAdj_adjEnsure, lookupAdj_adjEnsure]
      simp only [List.mem_append]
      exact Or.inl h
    · rw [lookupAdj_adjPush_ne _ _ _ _ h2, lookupAdj_adjEnsure, lookupAdj_adjEnsure]
      exact h

theorem lookupAdj_adjStep_self (m : List (String × List AdjEntry)) (e : GEdge) :
    (⟨e.toId, e.dist, e.type⟩ : AdjEntry) ∈ lookupAdj (adjStep m e) e.fromId ∧
    (⟨e.fromId, e.dist, e.type⟩ : AdjEntry) ∈ lookupAdj (adjStep m e) e.toId := by
  unfold adjStep
  constructor
  · by_cases h : e.toId = e.fromId
    · rw [h, lookupAdj_adjPush_self, lookupAdj_adjPush_self]
      simp
    · rw [lookupAdj_adjPush_ne _ _ _ _ h, lookupAdj_adjPush_self]
      simp
  · rw [lookupAdj_adjPush_self]
    simp

theorem foldl_adjStep_mono {edges : List GEdge}
    {m : List (String × List AdjEntry)} {k : String} {x : AdjEntry}
    (h : x ∈ lookupAdj m k) : x ∈ lookupAdj (edges.foldl adjStep m) k := by
  induction edges generalizing m with
  | nil => exact h
  | cons e rest ih => exact ih (lookupAdj_adjStep_mono e h)

/-- Symmetry of the adjacency cache: every stored edge contributes its two
directed entries. -/
theorem buildAdj_symm (nodes : List GNode) (edges : List GEdge) :
    ∀ e, e ∈ edges →
      (⟨e.toId, e.dist, e.type⟩ : AdjEntry) ∈ lookupAdj (buildAdj nodes edges) e.fromId ∧
      (⟨e.fromId, e.dist, e.type⟩ : AdjEntry) ∈ lookupAdj (buildAdj nodes edges) e.toId := by
  rw [buildAdj_eq_foldl]
  have main : ∀ (l : List GEdge) (m : List (String × List AdjEntry)), ∀ e, e ∈ l →
      (⟨e.toId, e.dist, e.type⟩ : AdjEntry) ∈ lookupAdj (l.foldl adjStep m) e.fromId ∧
      (⟨e.fromId, e.dist, e.type⟩ : AdjEntry) ∈ lookupAdj (l.foldl adjStep m) e.toId := by
    intro l
    induction l with
    | nil => simp
    | cons e0 rest ih =>
      intro m e he
      rcases List.mem_cons.mp he with he | he
      · subst he
        simp only [List.foldl_cons]
        obtain ⟨h1, h2⟩ := lookupAdj_adjStep_self m e
        exact ⟨foldl_adjStep_mono h1, foldl_adjStep_mono h2⟩
      · exact ih (adjStep m e0) e he
  exact main edges (adjInit nodes)


/-! ## Closure of the loaded state: every stored node and edge endpoint is a
key of `idMap`. -/

def StClosed (st : EngineState) : Prop :=
  (∀ n, n ∈ st.globalNodes → (alGet st.idMap n.id).isSome) ∧
  (∀ e, e ∈ st.globalEdges →
     (alGet st.idMap e.fromId).isSome ∧ (alGet st.idMap e.toId).isSome)

theorem loadFloorNodes_closed (c : FloorConf) (yOff xc : ℚ) (ns : List InNode)
    (st : EngineState) (h : StClosed st) : StClosed (loadFloorNodes c yOff xc ns st) := by
  induction ns generalizing st with
  | nil => exact h
  | cons n rest ih =>
    apply ih
    obtain ⟨hn, he⟩ := h
    constructor
    · intro x hx
      simp only [List.mem_append, List.mem_singleton] at hx
      rcases hx with hx | hx
      · exact alGet_isSome_alSet _ _ _ _ (hn x hx)
      · rw [hx, alGet_alSet_self]
        rfl
    · intro e he'
      obtain ⟨h1, h2⟩ := he e he'
      exact ⟨alGet_isSome_alSet _ _ _ _ h1, alGet_isSome_alSet _ _ _ _ h2⟩

theorem loadFloorEdges_idMap (c : FloorConf) (es : List InEdge) (st : EngineState) :
    (loadFloorEdges c es st).idMap = st.idMap := by
  induction es generalizing st with
  | nil => rfl
  | cons e rest ih =>
    simp only [loadFloorEdges, List.foldl_cons]
    by_cases hc : (alGet st.idMap (nodeKey c.id e.fromId)).isSome
        && (alGet st.idMap (nodeKey c.id e.toId)).isSome
    · rw [if_pos hc]
      exact ih _
    · rw [if_neg hc]
      exact ih st

theorem loadFloorEdges_closed (c : FloorConf) (es : List InEdge) (st : EngineState)
    (h : StClosed st) : StClosed (loadFloorEdges c es st) := by
  induction es generalizing st with
  | nil => exact h
  | cons e rest ih =>
    simp only [loadFloorEdges, List.foldl_cons]
    by_cases hc : (alGet st.idMap (nodeKey c.id e.fromId)).isSome
        && (alGet st.idMap (nodeKey c.id e.toId)).isSome
    · rw [if_pos hc]
      apply ih
      obtain ⟨hn, he⟩ := h
      rw [Bool.and_eq_true] at hc
      constructor
      · exact hn
      · intro e' he'
        simp only [List.mem_append, List.mem_singleton] at he'
        rcases he' with he' | he'
        · exact he e' he'
        · rw [he']
          exact ⟨hc.1, hc.2⟩
    · rw [if_neg hc]
      exact ih st h

theorem loadData_closed (cfg : List (FloorConf × FloorData)) :
    StClosed (loadData cfg) := by
  unfold loadData
  have main : ∀ (l : List (FloorConf × FloorData)) (offs : List (Int × ℚ))
      (st : EngineState), StClosed st →
      StClosed (l.foldl (fun st p =>
        loadFloorEdges p.1 p.2.edges
          (loadFloorNodes p.1 ((alGetI offs p.1.id).getD 0) (cropXOf p.1)
            p.2.nodes st)) st) := by
    intro l
    induction l with
    | nil => intro offs st h; exact h
    | cons p rest ih =>
      intro offs st h
      simp only [List.foldl_cons]
      exact ih offs _ (loadFloorEdges_closed _ _ _ (loadFloorNodes_closed _ _ _ _ _ h))
  exact main cfg _ _ ⟨by simp, by simp⟩

theorem buildGlobalGraph_closed (st : EngineState) (h : StClosed st) :
    StClosed (buildGlobalGraph st) := by
  obtain ⟨hn, he⟩ := h
  constructor
  · exact hn
  · intro e he'
    simp only [buildGlobalGraph, List.mem_append] at he'
    rcases he' with he' | he'
    · exact he e he'
    · obtain ⟨n1, h1, n2, h2, hf, ht⟩ := transferEdgesOf_endpoints _ _ e he'
      rw [hf, ht]
      exact ⟨hn n1 h1, hn n2 h2⟩

theorem jsAbs_eq_abs (q : ℚ) : jsAbs q = |q| := by
  rcases lt_or_le q 0 with h | h
  · rw [jsAbs, if_pos h, abs_of_neg h]
  · rw [jsAbs, if_neg (not_lt.mpr h), abs_of_nonneg h]

/-! ## Scenario A nodes (floor 1 and floor 2 stairs nodes named "A") -/

def scnANode1 : GNode :=
  { id := "1_A", originalId := "A", floorId := 1, type := "stairs",
    name := some "A", connectionId := none, x := 0, baseX := 0, localY := 0, y := 0 }

def scnANode2 : GNode :=
  { id := "2_A", originalId := "A", floorId := 2, type := "stairs",
    name := some "A", connectionId := none, x := 0, baseX := 0, localY := 0, y := 0 }

/-- C4: for every connection key grouping at least two nodes, `buildGlobalGraph`
generates a synthetic transfer edge for every ordered pair of grouped nodes (a
full clique), with weight `|floorIdA - floorIdB| * 150` (when, as for every
loaded node, both floor ids are configured) and type `elevator`/`stairs` when
both endpoints share that type, else `transfer`; in Scenario A exactly one
stairs transfer edge of weight 150 is created. -/
theorem buildGlobalGraph_transfer_clique :
    (∀ st : EngineState, (buildGlobalGraph st).globalEdges
        = st.globalEdges ++ transferEdgesOf appConfigFloorIds st.globalNodes) ∧
    (∀ (floors : List Int) (nodes : List GNode),
      (∀ n, n ∈ nodes → n.floorId ∈ floors) →
      ∀ g, g ∈ connGroups nodes → 2 ≤ g.2.length →
      ∀ pr, pr ∈ listPairs g.2 →
        ({ fromId := pr.1.id, toId := pr.2.id,
           dist := |(pr.1.floorId : ℚ) - (pr.2.floorId : ℚ)| * 150,
           type := some (if pr.1.type = "elevator" ∧ pr.2.type = "elevator"
                         then "elevator"
                         else if pr.1.type = "stairs" ∧ pr.2.type = "stairs"
                         then "stairs" else "transfer"),
           floorId := none } : GEdge) ∈ transferEdgesOf floors nodes) ∧
    transferEdgesOf [1, 2, 3] [scnANode1, scnANode2]
      = [{ fromId := "1_A", toId := "2_A", dist := 150,
           type := some "stairs", floorId := none }] := by
  refine ⟨fun st => rfl, ?_, by decide⟩
  intro floors nodes hfl g hg hlen pr hpr
  have h1 : pr.1 ∈ nodes := connGroups_members nodes g hg pr.1 (listPairs_mem hpr).1
  have h2 : pr.2 ∈ nodes := connGroups_members nodes g hg pr.2 (listPairs_mem hpr).2
  have hmem := transferEdgesOf_mem_of_pair floors nodes hg (by omega) hpr
  have heq : mkTransferEdge floors pr
      = { fromId := pr.1.id, toId := pr.2.id,
          dist := |(pr.1.floorId : ℚ) - (pr.2.floorId : ℚ)| * 150,
          type := some (if pr.1.type = "elevator" ∧ pr.2.type = "elevator"
                        then "elevator"
                        else if pr.1.type = "stairs" ∧ pr.2.type = "stairs"
                        then "stairs" else "transfer"),
          floorId := none } := by
    unfold mkTransferEdge floorDistOf transferTypeOf
    rw [if_pos ⟨hfl pr.1 h1, hfl pr.2 h2⟩, jsAbs_eq_abs]
    simp only [Bool.and_eq_true, decide_eq_true_eq]
  rw [← heq]
  exact hmem

/-- Witness for C4 at the Scenario A input. -/
theorem buildGlobalGraph_transfer_clique_witness :
    ∃ x ∈ transferEdgesOf [1, 2, 3] [scnANode1, scnANode2],
      x.fromId = "1_A" ∧ x.toId = "2_A" ∧ x.dist = 150 ∧ x.type = some "stairs" := by
  have h := buildGlobalGraph_transfer_clique.2.1 [1, 2, 3]
    [scnANode1, scnANode2] (by decide) ("A", [scnANode1, scnANode2])
    (by decide) (by decide) (scnANode1, scnANode2) (by decide)
  refine ⟨_, h, rfl, rfl, ?_, ?_⟩
  · norm_num [scnANode1, scnANode2]
  · decide

/-- C5: in the built graph every stored edge's endpoints exist in the node map
(edges referencing a missing node are never stored), and the adjacency cache is
symmetric: every stored edge `(a, b, dist, type)` contributes the entry
`{to: b, dist, type}` under `a` and `{to: a, dist, type}` under `b`. -/
theorem builtGraph_closed_and_symmetric (cfg : List (FloorConf × FloorData)) :
    (∀ e, e ∈ (buildGlobalGraph (loadData cfg)).globalEdges →
       (alGet (buildGlobalGraph (loadData cfg)).idMap e.fromId).isSome ∧
       (alGet (buildGlobalGraph (loadData cfg)).idMap e.toId).isSome) ∧
    (∀ e, e ∈ (buildGlobalGraph (loadData cfg)).globalEdges →
       (⟨e.toId, e.dist, e.type⟩ : AdjEntry)
          ∈ lookupAdj (buildGlobalGraph (loadData cfg)).adj e.fromId ∧
       (⟨e.fromId, e.dist, e.type⟩ : AdjEntry)
          ∈ lookupAdj (buildGlobalGraph (loadData cfg)).adj e.toId) := by
  constructor
  · exact (buildGlobalGraph_closed _ (loadData_closed cfg)).2
  · intro e he
    exact buildAdj_symm (loadData cfg).globalNodes
      ((loadData cfg).globalEdges
        ++ transferEdgesOf appConfigFloorIds (loadData cfg).globalNodes) e he

/-- A one-floor demo configuration with two rooms and one stored edge. -/
def demoCfg : List (FloorConf × FloorData) :=
  [({ id := 1, imgWidth := 0, imgHeight := 0 },
    { nodes := [{ id := "a", x := 10, y := 20, type := "room",
                  name := none, connectionId := none },
                { id := "b", x := 30, y := 40, type := "room",
                  name := none, connectionId := none }],
      edges := [{ fromId := "a", toId := "b", dist := some 5,
                  barrierFreeBlocked := false }] })]

/-- Witness for C5 at the demo configuration. -/
theorem builtGraph_closed_and_symmetric_witness :
    ((⟨"1_b", 5, none⟩ : AdjEntry)
        ∈ lookupAdj (buildGlobalGraph (loadData demoCfg)).adj "1_a") ∧
    ((⟨"1_a", 5, none⟩ : AdjEntry)
        ∈ lookupAdj (buildGlobalGraph (loadData demoCfg)).adj "1_b") := by
  have h := (builtGraph_closed_and_symmetric demoCfg).2
    ({ fromId := "1_a", toId := "1_b", dist := 5, type := none,
       floorId := some 1 } : GEdge) (by decide)
  exact ⟨h.1, h.2⟩


/-! ## Int-keyed association-list lemmas (for `floorVisuals`) -/

theorem alGetI_alSetI_self {α : Type} (m : List (Int × α)) (k : Int) (v : α) :
    alGetI (alSetI m k v) k = some v := by
  induction m with
  | nil => simp [alSetI, alGetI]
  | cons p rest ih =>
    obtain ⟨k0, v0⟩ := p
    by_cases h : k0 = k
    · simp [alSetI, alGetI, h]
    · simp [alSetI, alGetI, h, ih]

theorem alGetI_alSetI_ne {α : Type} (m : List (Int × α)) (k k' : Int) (v : α)
    (h : k ≠ k') : alGetI (alSetI m k v) k' = alGetI m k' := by
  have h' : ¬(k = k') := h
  induction m with
  | nil => simp [alSetI, alGetI, h']
  | cons p rest ih =>
    obtain ⟨k0, v0⟩ := p
    by_cases h0 : k0 = k
    · subst h0
      simp [alSetI, alGetI, h']
    · simp only [alSetI, if_neg h0]
      by_cases h1 : k0 = k'
      · simp [alGetI, h1]
      · simp [alGetI, h1, ih]

theorem alGetI_foldl_alSetI_notmem {α : Type} {entries : List (Int × α)} {k : Int}
    (h : k ∉ entries.map Prod.fst) (m0 : List (Int × α)) :
    alGetI (entries.foldl (fun m e => alSetI m e.1 e.2) m0) k = alGetI m0 k := by
  induction entries generalizing m0 with
  | nil => rfl
  | cons e rest ih =>
    simp only [List.map_cons, List.mem_cons, not_or] at h
    simp only [List.foldl_cons]
    rw [ih h.2, alGetI_alSetI_ne _ _ _ _ (Ne.symm h.1)]

theorem alGetI_foldl_alSetI_mem {α : Type} {entries : List (Int × α)}
    (hnd : (entries.map Prod.fst).Nodup) {k : Int} {v : α}
    (hmem : (k, v) ∈ entries) (m0 : List (Int × α)) :
    alGetI (entries.foldl (fun m e => alSetI m e.1 e.2) m0) k = some v := by
  induction entries generalizing m0 with
  | nil => cases hmem
  | cons e rest ih =>
    simp only [List.map_cons, List.nodup_cons] at hnd
    rcases List.mem_cons.mp hmem with he | he
    · subst he
      simp only [List.foldl_cons]
      rw [alGetI_foldl_alSetI_notmem hnd.1, alGetI_alSetI_self]
    · simp only [List.foldl_cons]
      exact ih hnd.2 he _

/-! ## Sorting and stacking lemmas -/

theorem insertDescFloor_perm (c : FloorConf) (l : List FloorConf) :
    (insertDescFloor c l).Perm (c :: l) := by
  induction l with
  | nil => simp [insertDescFloor]
  | cons d rest ih =>
    by_cases h : d.id < c.id
    · simp [insertDescFloor, h]
    · simp only [insertDescFloor, if_neg h]
      exact (List.Perm.cons d ih).trans (List.Perm.swap c d rest)

theorem sortFloorsDesc_perm (l : List FloorConf) :
    (sortFloorsDesc l).Perm l := by
  have main : ∀ (xs : List FloorConf) (acc : List FloorConf),
      (xs.foldl (fun acc c => insertDescFloor c acc) acc).Perm (acc ++ xs) := by
    intro xs
    induction xs with
    | nil => simp
    | cons x rest ih =>
      intro acc
      simp only [List.foldl_cons]
      exact ((ih _).trans
        ((insertDescFloor_perm x acc).append_right rest)).trans List.perm_middle.symm
  simpa [sortFloorsDesc] using main l []

theorem stackFloors_length (inter : List Int) (cs : List FloorConf) (y : ℚ) :
    (stackFloors inter cs y).1.length = cs.length := by
  induction cs generalizing y with
  | nil => rfl
  | cons c rest ih => simp [stackFloors, ih]

theorem stackFloors_keys (inter : List Int) (cs : List FloorConf) (y : ℚ) :
    (stackFloors inter cs y).1.map Prod.fst = cs.map FloorConf.id := by
  induction cs generalizing y with
  | nil => rfl
  | cons c rest ih => simp [stackFloors, ih]

/-- The accumulated `currentY` before processing floor `i`. -/
def stackAccum (inter : List Int) : List FloorConf → ℚ → Nat → ℚ
  | _, y, 0 => y
  | [], y, _ + 1 => y
  | c :: rest, y, i + 1 =>
    stackAccum inter rest
      (y + effImgHeight c * floorScaleOf inter c.id + floorGapOf inter c.id) i

theorem stackAccum_succ (inter : List Int) (cs : List FloorConf) (y : ℚ)
    (i : Nat) (hi : i < cs.length) :
    stackAccum inter cs y (i + 1)
      = stackAccum inter cs y i
        + effImgHeight cs[i] * floorScaleOf inter cs[i].id
        + floorGapOf inter cs[i].id := by
  induction cs generalizing y i with
  | nil => simp at hi
  | cons c rest ih =>
    rcases i with _ | j
    · simp [stackAccum]
    · have hj : j < rest.length := by
        simpa using hi
      show stackAccum inter rest _ (j + 1) = _
      rw [ih _ j hj]
      rfl

theorem stackFloors_get (inter : List Int) (cs : List FloorConf) (y : ℚ)
    (i : Nat) (hi : i < cs.length) :
    (stackFloors inter cs y).1.get ⟨i, by rw [stackFloors_length]; exact hi⟩
      = (cs[i].id,
         ⟨floorScaleOf inter cs[i].id, floorOpacityOf inter cs[i].id,
          stackAccum inter cs y i⟩) := by
  induction cs generalizing y i with
  | nil => simp at hi
  | cons c rest ih =>
    rcases i with _ | j
    · rfl
    · have hj : j < rest.length := by
        simpa using hi
      show (stackFloors inter rest _).1.get ⟨j, _⟩ = _
      rw [ih _ j hj]
      rfl

theorem updNodeCoords_floorId (v : List (Int × FloorVisual)) (n : GNode) :
    (updNodeCoords v n).floorId = n.floorId := by
  unfold updNodeCoords
  cases alGetI v n.floorId <;> rfl

theorem updNodeCoords_localY (v : List (Int × FloorVisual)) (n : GNode) :
    (updNodeCoords v n).localY = n.localY := by
  unfold updNodeCoords
  cases alGetI v n.floorId <;> rfl

theorem updNodeCoords_baseX (v : List (Int × FloorVisual)) (n : GNode) :
    (updNodeCoords v n).baseX = n.baseX := by
  unfold updNodeCoords
  cases alGetI v n.floorId <;> rfl

theorem updNodeCoords_spec (v : List (Int × FloorVisual)) (n : GNode)
    {vis : FloorVisual} (h : alGetI v n.floorId = some vis) :
    (updNodeCoords v n).y = n.localY * vis.scale + vis.y ∧
    (updNodeCoords v n).x = n.baseX * vis.scale := by
  unfold updNodeCoords
  rw [h]
  exact ⟨rfl, rfl⟩


/-- C8: after `updateFloorLayout` runs for a given path (on a configuration
with distinct floor ids): the intermediate floors are exactly the configured
floors strictly between the path's two endpoint floors when those differ;
every intermediate floor gets scale 0.6 and opacity 0.3 and is stacked with a
gap of 0.1 × the default gap; every other floor gets scale 1.0, opacity 1.0
and the default gap; and every node's world coordinates satisfy
`worldY = localY * floorScale + floorYOffset` and
`worldX = localX * floorScale`. -/
theorem updateFloorLayout_spec (st : EngineState) (pathNodes : List String)
    (hnodup : (st.floorsConfig.map FloorConf.id).Nodup) :
    (∀ f : Int, f ∈ intermediateFloors st pathNodes ↔
       f ∈ appConfigFloorIds ∧ ∃ h t sN eN, pathNodes = h :: t ∧
         getNode st h = some sN ∧ getNode st (t.getLastD h) = some eN ∧
         sN.floorId ≠ eN.floorId ∧
         min sN.floorId eN.floorId < f ∧ f < max sN.floorId eN.floorId) ∧
    (∀ c, c ∈ st.floorsConfig →
       ∃ y0, alGetI (updateFloorLayout st pathNodes).floorVisuals c.id
         = some ⟨if c.id ∈ intermediateFloors st pathNodes then 6/10 else 1,
                 if c.id ∈ intermediateFloors st pathNodes then 3/10 else 1,
                 y0⟩) ∧
    (∀ f, f ∈ appConfigFloorIds → f ∉ st.floorsConfig.map FloorConf.id →
       alGetI (updateFloorLayout st pathNodes).floorVisuals f
         = some ⟨1, 1, 0⟩) ∧
    (∀ i, (hi2 : i + 1 < (sortFloorsDesc st.floorsConfig).length) →
       ∃ vis vis',
         alGetI (updateFloorLayout st pathNodes).floorVisuals
             ((sortFloorsDesc st.floorsConfig)[i]).id = some vis ∧
         alGetI (updateFloorLayout st pathNodes).floorVisuals
             ((sortFloorsDesc st.floorsConfig)[i + 1]).id = some vis' ∧
         vis'.y = vis.y
           + effImgHeight ((sortFloorsDesc st.floorsConfig)[i]) * vis.scale
           + (if ((sortFloorsDesc st.floorsConfig)[i]).id
                  ∈ intermediateFloors st pathNodes
              then floorGap * (1/10) else floorGap)) ∧
    (∀ n', n' ∈ (updateFloorLayout st pathNodes).globalNodes → ∀ vis,
       alGetI (updateFloorLayout st pathNodes).floorVisuals n'.floorId = some vis →
       n'.y = n'.localY * vis.scale + vis.y ∧ n'.x = n'.baseX * vis.scale) := by
  have hvis : (updateFloorLayout st pathNodes).floorVisuals
      = ((stackFloors (intermediateFloors st pathNodes)
            (sortFloorsDesc st.floorsConfig) 0).1).foldl
          (fun m e => alSetI m e.1 e.2)
          (appConfigFloorIds.foldl (fun m f => alSetI m f ⟨1, 1, 0⟩) []) := rfl
  have hkeys : ((stackFloors (intermediateFloors st pathNodes)
        (sortFloorsDesc st.floorsConfig) 0).1).map Prod.fst
      = (sortFloorsDesc st.floorsConfig).map FloorConf.id :=
    stackFloors_keys _ _ _
  have hpermids : ((sortFloorsDesc st.floorsConfig).map FloorConf.id).Perm
      (st.floorsConfig.map FloorConf.id) :=
    (sortFloorsDesc_perm st.floorsConfig).map FloorConf.id
  have hnd : (((stackFloors (intermediateFloors st pathNodes)
        (sortFloorsDesc st.floorsConfig) 0).1).map Prod.fst).Nodup := by
    rw [hkeys]
    exact hpermids.nodup_iff.mpr hnodup
  have h1 : ∀ f : Int, f ∈ intermediateFloors st pathNodes ↔
      f ∈ appConfigFloorIds ∧ ∃ h t sN eN, pathNodes = h :: t ∧
        getNode st h = some sN ∧ getNode st (t.getLastD h) = some eN ∧
        sN.floorId ≠ eN.floorId ∧
        min sN.floorId eN.floorId < f ∧ f < max sN.floorId eN.floorId := by
    intro f
    rcases pathNodes with _ | ⟨h0, t0⟩
    · simp [intermediateFloors]
    · rcases hgs : getNode st h0 with _ | sN
      · simp only [intermediateFloors, hgs]
        constructor
        · intro hf
          cases hf
        · rintro ⟨-, h, t, sN', eN', heq, hg1, -⟩
          obtain ⟨rfl, rfl⟩ := List.cons.injEq .. ▸ heq
          rw [hgs] at hg1
          cases hg1
      · rcases hge : getNode st (t0.getLastD h0) with _ | eN
        · simp only [intermediateFloors, hgs, hge]
          constructor
          · intro hf
            cases hf
          · rintro ⟨-, h, t, sN', eN', heq, hg1, hg2, -⟩
            obtain ⟨rfl, rfl⟩ := List.cons.injEq .. ▸ heq
            rw [hge] at hg2
            cases hg2
        · by_cases hne : sN.floorId = eN.floorId
          · simp only [intermediateFloors, hgs, hge, if_neg (not_not.mpr hne)]
            constructor
            · intro hf
              cases hf
            · rintro ⟨-, h, t, sN', eN', heq, hg1, hg2, hne', -⟩
              obtain ⟨rfl, rfl⟩ := List.cons.injEq .. ▸ heq
              rw [hgs] at hg1
              rw [hge] at hg2
              cases hg1
              cases hg2
              exact absurd hne hne'
          · simp only [intermediateFloors, hgs, hge, if_pos hne, List.mem_filter,
              decide_eq_true_eq]
            constructor
            · rintro ⟨hfa, hlt1, hlt2⟩
              exact ⟨hfa, h0, t0, sN, eN, rfl, hgs, hge, hne, hlt1, hlt2⟩
            · rintro ⟨hfa, h, t, sN', eN', heq, hg1, hg2, hne', hlt1, hlt2⟩
              obtain ⟨rfl, rfl⟩ := List.cons.injEq .. ▸ heq
              rw [hgs] at hg1
              rw [hge] at hg2
              cases hg1
              cases hg2
              exact ⟨hfa, hlt1, hlt2⟩
  have h2 : ∀ c, c ∈ st.floorsConfig →
      ∃ y0, alGetI (updateFloorLayout st pathNodes).floorVisuals c.id
        = some ⟨if c.id ∈ intermediateFloors st pathNodes then 6/10 else 1,
                if c.id ∈ intermediateFloors st pathNodes then 3/10 else 1,
                y0⟩ := by
    intro c hc
    have hcs : c ∈ sortFloorsDesc st.floorsConfig :=
      (sortFloorsDesc_perm st.floorsConfig).mem_iff.mpr hc
    obtain ⟨i, hi, hci⟩ := List.getElem_of_mem hcs
    have hentry := stackFloors_get (intermediateFloors st pathNodes)
      (sortFloorsDesc st.floorsConfig) 0 i hi
    rw [hci] at hentry
    have hmem : (c.id, (⟨floorScaleOf (intermediateFloors st pathNodes) c.id,
        floorOpacityOf (intermediateFloors st pathNodes) c.id,
        stackAccum (intermediateFloors st pathNodes)
          (sortFloorsDesc st.floorsConfig) 0 i⟩ : FloorVisual))
        ∈ (stackFloors (intermediateFloors st pathNodes)
            (sortFloorsDesc st.floorsConfig) 0).1 := by
      rw [← hentry]
      exact List.getElem_mem _
    refine ⟨stackAccum (intermediateFloors st pathNodes)
      (sortFloorsDesc st.floorsConfig) 0 i, ?_⟩
    rw [hvis, alGetI_foldl_alSetI_mem hnd hmem]
    rfl
  have h3 : ∀ f, f ∈ appConfigFloorIds → f ∉ st.floorsConfig.map FloorConf.id →
      alGetI (updateFloorLayout st pathNodes).floorVisuals f = some ⟨1, 1, 0⟩ := by
    intro f hfa hfn
    have hkeyne : f ∉ ((stackFloors (intermediateFloors st pathNodes)
        (sortFloorsDesc st.floorsConfig) 0).1).map Prod.fst := by
      rw [hkeys]
      intro hmem
      exact hfn (hpermids.mem_iff.mp hmem)
    rw [hvis, alGetI_foldl_alSetI_notmem hkeyne]
    have hall : ∀ f0, f0 ∈ appConfigFloorIds →
        alGetI (appConfigFloorIds.foldl (fun m f => alSetI m f ⟨1, 1, 0⟩)
          ([] : List (Int × FloorVisual))) f0
          = some (⟨1, 1, 0⟩ : FloorVisual) := by decide
    exact hall f hfa
  have h4 : ∀ i, (hi2 : i + 1 < (sortFloorsDesc st.floorsConfig).length) →
      ∃ vis vis',
        alGetI (updateFloorLayout st pathNodes).floorVisuals
            ((sortFloorsDesc st.floorsConfig)[i]).id = some vis ∧
        alGetI (updateFloorLayout st pathNodes).floorVisuals
            ((sortFloorsDesc st.floorsConfig)[i + 1]).id = some vis' ∧
        vis'.y = vis.y
          + effImgHeight ((sortFloorsDesc st.floorsConfig)[i]) * vis.scale
          + (if ((sortFloorsDesc st.floorsConfig)[i]).id
                 ∈ intermediateFloors st pathNodes
             then floorGap * (1/10) else floorGap) := by
    intro i hi2
    have hi : i < (sortFloorsDesc st.floorsConfig).length := by omega
    have hg1 := stackFloors_get (intermediateFloors st pathNodes)
      (sortFloorsDesc st.floorsConfig) 0 i hi
    have hg2 := stackFloors_get (intermediateFloors st pathNodes)
      (sortFloorsDesc st.floorsConfig) 0 (i+1) hi2
    have hmem1 : (((sortFloorsDesc st.floorsConfig)[i]).id,
        (⟨floorScaleOf (intermediateFloors st pathNodes)
            ((sortFloorsDesc st.floorsConfig)[i]).id,
          floorOpacityOf (intermediateFloors st pathNodes)
            ((sortFloorsDesc st.floorsConfig)[i]).id,
          stackAccum (intermediateFloors st pathNodes)
            (sortFloorsDesc st.floorsConfig) 0 i⟩ : FloorVisual))
        ∈ (stackFloors (intermediateFloors st pathNodes)
            (sortFloorsDesc st.floorsConfig) 0).1 := by
      rw [← hg1]
      exact List.get_mem _ _ _
    have hmem2 : (((sortFloorsDesc st.floorsConfig)[i + 1]).id,
        (⟨floorScaleOf (intermediateFloors st pathNodes)
            ((sortFloorsDesc st.floorsConfig)[i + 1]).id,
          floorOpacityOf (intermediateFloors st pathNodes)
            ((sortFloorsDesc st.floorsConfig)[i + 1]).id,
          stackAccum (intermediateFloors st pathNodes)
            (sortFloorsDesc st.floorsConfig) 0 (i+1)⟩ : FloorVisual))
        ∈ (stackFloors (intermediateFloors st pathNodes)
            (sortFloorsDesc st.floorsConfig) 0).1 := by
      rw [← hg2]
      exact List.get_mem _ _ _
    refine ⟨⟨floorScaleOf (intermediateFloors st pathNodes)
          ((sortFloorsDesc st.floorsConfig)[i]).id,
        floorOpacityOf (intermediateFloors st pathNodes)
          ((sortFloorsDesc st.floorsConfig)[i]).id,
        stackAccum (intermediateFloors st pathNodes)
          (sortFloorsDesc st.floorsConfig) 0 i⟩,
      ⟨floorScaleOf (intermediateFloors st pathNodes)
          ((sortFloorsDesc st.floorsConfig)[i + 1]).id,
        floorOpacityOf (intermediateFloors st pathNodes)
          ((sortFloorsDesc st.floorsConfig)[i + 1]).id,
        stackAccum (intermediateFloors st pathNodes)
          (sortFloorsDesc st.floorsConfig) 0 (i+1)⟩, ?_, ?_, ?_⟩
    · rw [hvis, alGetI_foldl_alSetI_mem hnd hmem1]
    · rw [hvis, alGetI_foldl_alSetI_mem hnd hmem2]
    · show stackAccum (intermediateFloors st pathNodes)
          (sortFloorsDesc st.floorsConfig) 0 (i+1) = _
      rw [stackAccum_succ _ _ _ i hi]
      rfl
  have h5 : ∀ n', n' ∈ (updateFloorLayout st pathNodes).globalNodes → ∀ vis,
      alGetI (updateFloorLayout st pathNodes).floorVisuals n'.floorId = some vis →
      n'.y = n'.localY * vis.scale + vis.y ∧ n'.x = n'.baseX * vis.scale := by
    intro n' hm vis hv
    have hg : (updateFloorLayout st pathNodes).globalNodes
        = st.globalNodes.map
            (updNodeCoords ((updateFloorLayout st pathNodes).floorVisuals)) := rfl
    rw [hg] at hm
    obtain ⟨n, hn, heq⟩ := List.mem_map.mp hm
    rw [← heq] at hv ⊢
    rw [updNodeCoords_floorId] at hv
    rw [updNodeCoords_localY, updNodeCoords_baseX]
    exact updNodeCoords_spec _ _ hv
  exact ⟨h1, h2, h3, h4, h5⟩

/-- Witness for C8 at the demo configuration with an empty path. -/
theorem updateFloorLayout_spec_witness :
    alGetI (updateFloorLayout (loadData demoCfg) []).floorVisuals 2
      = some ⟨1, 1, 0⟩ := by
  have h := (updateFloorLayout_spec (loadData demoCfg) [] (by decide)).2.2.1 2
    (by decide) (by decide)
  exact h


/-! ## MinHeap: the binary min-heap used by the Dijkstra priority queue,
as a list-based functional translation of the `MinHeap` class. -/

structure HeapEntry where
  id : String
  dist : ℚ
deriving DecidableEq

/-- Array indexing `this.heap[n]` (out-of-range reads never happen in the
source loops; a default entry keeps the function total). -/
def hget (l : List HeapEntry) (n : Nat) : HeapEntry := l.getD n ⟨"", 0⟩

/-- `[this.heap[i], this.heap[j]] = [this.heap[j], this.heap[i]]`. -/
def hswap (l : List HeapEntry) (i j : Nat) : List HeapEntry :=
  (l.set i (hget l j)).set j (hget l i)

def bubbleUpF : Nat → List HeapEntry → Nat → List HeapEntry
  | 0, l, _ => l
  | fuel + 1, l, n =>
    if n = 0 then l
    else if (hget l n).dist ≥ (hget l ((n - 1) / 2)).dist then l
    else bubbleUpF fuel (hswap l n ((n - 1) / 2)) ((n - 1) / 2)

/-- `_bubbleUp(n)`: swap with the parent while strictly smaller (the parent
index halving bounds the iteration count, giving the fuel). -/
def bubbleUp (l : List HeapEntry) (n : Nat) : List HeapEntry :=
  bubbleUpF (n + 1) l n

theorem bubbleUpF_irrel :
    ∀ (f g : Nat) (l : List HeapEntry) (n : Nat), n < f → n < g →
      bubbleUpF f l n = bubbleUpF g l n := by
  intro f
  induction f with
  | zero =>
    intro g l n hf _
    omega
  | succ f ih =>
    intro g l n hf hg
    cases g with
    | zero => omega
    | succ g =>
      show bubbleUpF (f + 1) l n = bubbleUpF (g + 1) l n
      simp only [bubbleUpF]
      by_cases h0 : n = 0
      · rw [if_pos h0, if_pos h0]
      · rw [if_neg h0, if_neg h0]
        by_cases hstop : (hget l n).dist ≥ (hget l ((n - 1) / 2)).dist
        · rw [if_pos hstop, if_pos hstop]
        · rw [if_neg hstop, if_neg hstop]
          exact ih g _ _ (by omega) (by omega)

theorem bubbleUp_eq (l : List HeapEntry) (n : Nat) :
    bubbleUp l n =
      if n = 0 then l
      else if (hget l n).dist ≥ (hget l ((n - 1) / 2)).dist then l
      else bubbleUp (hswap l n ((n - 1) / 2)) ((n - 1) / 2) := by
  show bubbleUpF (n + 1) l n = _
  conv_lhs => rw [bubbleUpF]
  by_cases h0 : n = 0
  · rw [if_pos h0, if_pos h0]
  · rw [if_neg h0, if_neg h0]
    by_cases hstop : (hget l n).dist ≥ (hget l ((n - 1) / 2)).dist
    · rw [if_pos hstop, if_pos hstop]
    · rw [if_neg hstop, if_neg hstop]
      exact bubbleUpF_irrel n ((n - 1) / 2 + 1) _ _ (by omega) (by omega)

/-- `push(val)`: append then bubble up from the last index. -/
def heapPush (l : List HeapEntry) (v : HeapEntry) : List HeapEntry :=
  bubbleUp (l ++ [v]) l.length

/-- One round of `_sinkDown`'s swap-target selection: left child if smaller
than the current node, then right child if smaller than the already chosen
candidate (`swap !== null ? heap[swap] : heap[n]`). -/
def sinkStep (l : List HeapEntry) (n : Nat) : Option Nat :=
  if 2*n+1 < l.length ∧ (hget l (2*n+1)).dist < (hget l n).dist then
    if 2*n+2 < l.length ∧ (hget l (2*n+2)).dist < (hget l (2*n+1)).dist
    then some (2*n+2) else some (2*n+1)
  else
    if 2*n+2 < l.length ∧ (hget l (2*n+2)).dist < (hget l n).dist
    then some (2*n+2) else none

theorem sinkStep_lt {l : List HeapEntry} {n s : Nat} (h : sinkStep l n = some s) :
    n < s ∧ s < l.length := by
  unfold sinkStep at h
  by_cases h1 : 2*n+1 < l.length ∧ (hget l (2*n+1)).dist < (hget l n).dist
  · rw [if_pos h1] at h
    by_cases h2 : 2*n+2 < l.length ∧ (hget l (2*n+2)).dist < (hget l (2*n+1)).dist
    · rw [if_pos h2] at h
      cases h
      exact ⟨by omega, h2.1⟩
    · rw [if_neg h2] at h
      cases h
      exact ⟨by omega, h1.1⟩
  · rw [if_neg h1] at h
    by_cases h2 : 2*n+2 < l.length ∧ (hget l (2*n+2)).dist < (hget l n).dist
    · rw [if_pos h2] at h
      cases h
      exact ⟨by omega, h2.1⟩
    · rw [if_neg h2] at h
      cases h

theorem hswap_length (l : List HeapEntry) (i j : Nat) :
    (hswap l i j).length = l.length := by
  simp [hswap]

theorem sinkStep_none_of_ge {l : List HeapEntry} {n : Nat}
    (h : l.length ≤ n) : sinkStep l n = none := by
  unfold sinkStep
  have h1 : ¬(2 * n + 1 < l.length ∧
      (hget l (2 * n + 1)).dist < (hget l n).dist) := by
    intro hc
    omega
  have h2 : ¬(2 * n + 2 < l.length ∧
      (hget l (2 * n + 2)).dist < (hget l n).dist) := by
    intro hc
    omega
  rw [if_neg h1, if_neg h2]

def sinkDownF : Nat → List HeapEntry → Nat → List HeapEntry
  | 0, l, _ => l
  | fuel + 1, l, n =>
    match sinkStep l n with
    | none => l
    | some s => sinkDownF fuel (hswap l n s) s

/-- `_sinkDown(n)` (the swap target is always a strictly larger index, so
`l.length - n` bounds the iteration count, giving the fuel). -/
def sinkDown (l : List HeapEntry) (n : Nat) : List HeapEntry :=
  sinkDownF (l.length - n) l n

theorem sinkDownF_irrel :
    ∀ (f g : Nat) (l : List HeapEntry) (n : Nat),
      l.length - n ≤ f → l.length - n ≤ g →
      sinkDownF f l n = sinkDownF g l n := by
  intro f
  induction f with
  | zero =>
    intro g l n hf hg
    have hnone := sinkStep_none_of_ge (l := l) (n := n) (by omega)
    cases g with
    | zero => rfl
    | succ g =>
      show sinkDownF 0 l n = sinkDownF (g + 1) l n
      simp only [sinkDownF, hnone]
  | succ f ih =>
    intro g l n hf hg
    cases g with
    | zero =>
      have hnone := sinkStep_none_of_ge (l := l) (n := n) (by omega)
      show sinkDownF (f + 1) l n = sinkDownF 0 l n
      simp only [sinkDownF, hnone]
    | succ g =>
      show sinkDownF (f + 1) l n = sinkDownF (g + 1) l n
      simp only [sinkDownF]
      cases hs : sinkStep l n with
      | none => rfl
      | some s =>
        have hlt := sinkStep_lt hs
        exact ih g _ _ (by rw [hswap_length]; omega)
          (by rw [hswap_length]; omega)

theorem sinkDown_eq (l : List HeapEntry) (n : Nat) :
    sinkDown l n = match sinkStep l n with
      | none => l
      | some s => sinkDown (hswap l n s) s := by
  show sinkDownF (l.length - n) l n = _
  cases hk : l.length - n with
  | zero =>
    have hnone := sinkStep_none_of_ge (l := l) (n := n) (by omega)
    rw [hnone]
    rfl
  | succ k =>
    simp only [sinkDownF]
    cases hs : sinkStep l n with
    | none => rfl
    | some s =>
      have hlt := sinkStep_lt hs
      show sinkDownF k (hswap l n s) s =
        sinkDownF ((hswap l n s).length - s) (hswap l n s) s
      exact sinkDownF_irrel k _ _ _ (by rw [hswap_length]; omega)
        (le_refl _)

/-- `pop()`: return the root; move the last element to the root and sink it. -/
def heapPop : List HeapEntry → Option (HeapEntry × List HeapEntry)
  | [] => none
  | [x] => some (x, [])
  | x :: y :: ys =>
    some (x, sinkDown (((y :: ys).getLast (List.cons_ne_nil y ys))
      :: (y :: ys).dropLast) 0)

/-- The binary-heap ordering invariant. -/
def HeapInv (l : List HeapEntry) : Prop :=
  ∀ i, 0 < i → i < l.length → (hget l ((i - 1) / 2)).dist ≤ (hget l i).dist

/-! Basic indexing lemmas. -/

theorem hget_eq_getElem (l : List HeapEntry) (n : Nat) (h : n < l.length) :
    hget l n = l[n] := by
  rw [hget, List.getD_eq_getElem?_getD, List.getElem?_eq_getElem h]
  rfl

theorem hget_set_self (l : List HeapEntry) (i : Nat) (v : HeapEntry)
    (h : i < l.length) : hget (l.set i v) i = v := by
  rw [hget, List.getD_eq_getElem?_getD, List.getElem?_set_eq_of_lt v h]
  rfl

theorem hget_set_ne (l : List HeapEntry) (i k : Nat) (v : HeapEntry)
    (h : i ≠ k) : hget (l.set i v) k = hget l k := by
  rw [hget, hget, List.getD_eq_getElem?_getD, List.getD_eq_getElem?_getD,
    List.getElem?_set_ne h]

theorem hget_hswap_left (l : List HeapEntry) {i j : Nat} (hi : i < l.length)
    (hj : j < l.length) : hget (hswap l i j) i = hget l j := by
  by_cases hij : i = j
  · subst hij
    unfold hswap
    rw [hget_set_self _ _ _ (by simpa using hi)]
  · unfold hswap
    rw [hget_set_ne _ _ _ _ (Ne.symm hij), hget_set_self _ _ _ hi]

theorem hget_hswap_right (l : List HeapEntry) {i j : Nat} (hi : i < l.length)
    (hj : j < l.length) : hget (hswap l i j) j = hget l i := by
  unfold hswap
  rw [hget_set_self _ _ _ (by simpa using hj)]

theorem hget_hswap_other (l : List HeapEntry) {i j k : Nat} (hk1 : k ≠ i)
    (hk2 : k ≠ j) : hget (hswap l i j) k = hget l k := by
  unfold hswap
  rw [hget_set_ne _ _ _ _ (Ne.symm hk2), hget_set_ne _ _ _ _ (Ne.symm hk1)]

theorem set_getElem_self' (l : List HeapEntry) (i : Nat) (h : i < l.length) :
    l.set i l[i] = l := by
  apply List.ext_getElem?
  intro k
  by_cases hk : i = k
  · subst hk
    rw [List.getElem?_set_eq_of_lt _ h, List.getElem?_eq_getElem h]
  · rw [List.getElem?_set_ne hk]

theorem cons_set_perm (xs : List HeapEntry) (k : Nat) (x : HeapEntry)
    (h : k < xs.length) : (xs[k] :: xs.set k x).Perm (x :: xs) := by
  induction xs generalizing k with
  | nil => simp at h
  | cons y ys ih =>
    rcases k with _ | m
    · simp only [List.getElem_cons_zero, List.set_cons_zero]
      exact List.Perm.swap x y ys
    · have hm : m < ys.length := by simpa using h
      simp only [List.getElem_cons_succ, List.set_cons_succ]
      exact ((List.Perm.swap y (ys[m]) (ys.set m x)).trans
        (List.Perm.cons y (ih m hm))).trans (List.Perm.swap x y ys)

theorem hswap_perm_lt (l : List HeapEntry) {i j : Nat} (hij : i < j)
    (hj : j < l.length) : (hswap l i j).Perm l := by
  induction l generalizing i j with
  | nil => simp at hj
  | cons a as ih =>
    rcases i with _ | k
    · rcases j with _ | m
      · omega
      · have hm : m < as.length := by simpa using hj
        show ((hget as m :: as).set (m+1) a).Perm (a :: as)
        show (hget as m :: as.set m a).Perm (a :: as)
        rw [hget_eq_getElem as m hm]
        exact cons_set_perm as m a hm
    · rcases j with _ | m
      · omega
      · have heq : hswap (a :: as) (k+1) (m+1) = a :: hswap as k m := rfl
        rw [heq]
        exact List.Perm.cons a (ih (by omega) (by simpa using hj))

theorem hswap_perm (l : List HeapEntry) {i j : Nat} (hi : i < l.length)
    (hj : j < l.length) : (hswap l i j).Perm l := by
  by_cases hij : i = j
  · subst hij
    unfold hswap
    rw [hget_eq_getElem _ _ hi, List.set_set, set_getElem_self' _ _ hi]
  · rcases Nat.lt_or_ge i j with hlt | hge
    · exact hswap_perm_lt l hlt hj
    · have hlt : j < i := by omega
      unfold hswap
      rw [List.set_comm _ _ _ hij]
      exact hswap_perm_lt l hlt hi


/-! ## Heap-invariant preservation -/

/-- Almost-heap invariant during `_bubbleUp`: the heap property may be broken
only at `n` against its parent, and `n`'s grandparent already bounds `n`'s
children. -/
def UpInv (l : List HeapEntry) (n : Nat) : Prop :=
  (∀ i, 0 < i → i < l.length → i ≠ n →
     (hget l ((i - 1) / 2)).dist ≤ (hget l i).dist) ∧
  (0 < n → ∀ j, j < l.length → (j - 1) / 2 = n →
     (hget l ((n - 1) / 2)).dist ≤ (hget l j).dist)

/-- Almost-heap invariant during `_sinkDown`: the heap property may be broken
only between `n` and its children, and `n`'s parent already bounds `n`'s
children. -/
def DownInv (l : List HeapEntry) (n : Nat) : Prop :=
  (∀ i, 0 < i → i < l.length → (i - 1) / 2 ≠ n →
     (hget l ((i - 1) / 2)).dist ≤ (hget l i).dist) ∧
  (0 < n → ∀ j, j < l.length → (j - 1) / 2 = n →
     (hget l ((n - 1) / 2)).dist ≤ (hget l j).dist)

theorem upInv_swap {l : List HeapEntry} {n : Nat} (hn : n < l.length)
    (h0 : n ≠ 0) (hinv : UpInv l n)
    (hlt : (hget l n).dist < (hget l ((n - 1) / 2)).dist) :
    UpInv (hswap l n ((n - 1) / 2)) ((n - 1) / 2) := by
  have hplen : (n - 1) / 2 < l.length := by omega
  have hpn : (n - 1) / 2 ≠ n := by omega
  obtain ⟨h1, h2⟩ := hinv
  constructor
  · intro i hi0 hilen hip
    rw [hswap_length] at hilen
    by_cases hin : i = n
    · subst hin
      rw [hget_hswap_left l hn hplen, hget_hswap_right l hn hplen]
      exact le_of_lt hlt
    · by_cases hpar_p : (i - 1) / 2 = (n - 1) / 2
      · rw [hpar_p, hget_hswap_right l hn hplen, hget_hswap_other l hin hip]
        have hsib : (hget l ((i - 1) / 2)).dist ≤ (hget l i).dist :=
          h1 i hi0 hilen hin
        rw [hpar_p] at hsib
        exact le_trans (le_of_lt hlt) hsib
      · by_cases hpar_n : (i - 1) / 2 = n
        · rw [hpar_n, hget_hswap_left l hn hplen, hget_hswap_other l hin hip]
          exact h2 (Nat.pos_of_ne_zero h0) i hilen hpar_n
        · rw [hget_hswap_other l hpar_n hpar_p, hget_hswap_other l hin hip]
          exact h1 i hi0 hilen hin
  · intro hp0 j hjlen hjp
    rw [hswap_length] at hjlen
    have hgp_eq : hget (hswap l n ((n - 1) / 2)) (((n - 1) / 2 - 1) / 2)
        = hget l (((n - 1) / 2 - 1) / 2) :=
      hget_hswap_other l (by omega) (by omega)
    rw [hgp_eq]
    by_cases hjn : j = n
    · rw [hjn, hget_hswap_left l hn hplen]
      exact h1 ((n - 1) / 2) hp0 hplen hpn
    · by_cases hjp2 : j = (n - 1) / 2
      · exfalso
        omega
      · rw [hget_hswap_other l hjn hjp2]
        have hj1 : (hget l ((j - 1) / 2)).dist ≤ (hget l j).dist :=
          h1 j (by omega) hjlen hjn
        rw [hjp] at hj1
        exact le_trans (h1 ((n - 1) / 2) hp0 hplen hpn) hj1

theorem heapInv_of_upInv_stop {l : List HeapEntry} {n : Nat} (hinv : UpInv l n)
    (hge : n = 0 ∨ (hget l n).dist ≥ (hget l ((n - 1) / 2)).dist) :
    HeapInv l := by
  intro i hi0 hilen
  by_cases hin : i = n
  · subst hin
    rcases hge with hge | hge
    · omega
    · exact hge
  · exact hinv.1 i hi0 hilen hin

theorem bubbleUp_heapInv :
    ∀ (n : Nat) (l : List HeapEntry), n < l.length → UpInv l n →
      HeapInv (bubbleUp l n) := by
  intro n
  induction n using Nat.strong_induction_on with
  | _ n ih =>
    intro l hn hinv
    rw [bubbleUp_eq]
    by_cases h0 : n = 0
    · rw [if_pos h0]
      exact heapInv_of_upInv_stop hinv (Or.inl h0)
    · rw [if_neg h0]
      by_cases hstop : (hget l n).dist ≥ (hget l ((n - 1) / 2)).dist
      · rw [if_pos hstop]
        exact heapInv_of_upInv_stop hinv (Or.inr hstop)
      · rw [if_neg hstop]
        exact ih ((n - 1) / 2) (by omega) _
          (by rw [hswap_length]; omega)
          (upInv_swap hn h0 hinv (lt_of_not_ge hstop))

theorem bubbleUp_perm :
    ∀ (n : Nat) (l : List HeapEntry), n < l.length → (bubbleUp l n).Perm l := by
  intro n
  induction n using Nat.strong_induction_on with
  | _ n ih =>
    intro l hn
    rw [bubbleUp_eq]
    by_cases h0 : n = 0
    · rw [if_pos h0]
    · rw [if_neg h0]
      by_cases hstop : (hget l n).dist ≥ (hget l ((n - 1) / 2)).dist
      · rw [if_pos hstop]
      · rw [if_neg hstop]
        exact (ih ((n - 1) / 2) (by omega) _
          (by rw [hswap_length]; omega)).trans
          (hswap_perm l hn (by omega))

theorem hget_append (l : List HeapEntry) (v : HeapEntry) (k : Nat)
    (h : k < l.length) : hget (l ++ [v]) k = hget l k := by
  rw [hget, hget, List.getD_eq_getElem?_getD, List.getD_eq_getElem?_getD,
    List.getElem?_append, if_pos h]

theorem heapPush_heapInv (l : List HeapEntry) (v : HeapEntry)
    (hinv : HeapInv l) : HeapInv (heapPush l v) := by
  apply bubbleUp_heapInv l.length (l ++ [v]) (by simp)
  constructor
  · intro i hi0 hilen hin
    simp only [List.length_append, List.length_singleton] at hilen
    have hi : i < l.length := by omega
    rw [hget_append _ _ _ hi, hget_append _ _ _ (by omega)]
    exact hinv i hi0 hi
  · intro h0 j hjlen hjp
    simp only [List.length_append, List.length_singleton] at hjlen
    omega

theorem heapPush_perm (l : List HeapEntry) (v : HeapEntry) :
    (heapPush l v).Perm (v :: l) :=
  (bubbleUp_perm l.length (l ++ [v]) (by simp)).trans
    (List.perm_append_singleton v l)

theorem sinkStep_facts {l : List HeapEntry} {n s : Nat}
    (h : sinkStep l n = some s) :
    (s - 1) / 2 = n ∧ n < s ∧ s < l.length ∧
    (hget l s).dist < (hget l n).dist ∧
    (∀ j, (j - 1) / 2 = n → 0 < j → j < l.length →
      (hget l s).dist ≤ (hget l j).dist) := by
  unfold sinkStep at h
  by_cases h1 : 2*n+1 < l.length ∧ (hget l (2*n+1)).dist < (hget l n).dist
  · rw [if_pos h1] at h
    by_cases h2 : 2*n+2 < l.length ∧ (hget l (2*n+2)).dist < (hget l (2*n+1)).dist
    · rw [if_pos h2] at h
      cases h
      refine ⟨by omega, by omega, h2.1, lt_trans h2.2 h1.2, ?_⟩
      intro j hj hj0 hjlen
      have hcases : j = 2*n+1 ∨ j = 2*n+2 := by omega
      rcases hcases with rfl | rfl
      · exact le_of_lt h2.2
      · exact le_refl _
    · rw [if_neg h2] at h
      cases h
      refine ⟨by omega, by omega, h1.1, h1.2, ?_⟩
      intro j hj hj0 hjlen
      have hcases : j = 2*n+1 ∨ j = 2*n+2 := by omega
      rcases hcases with rfl | rfl
      · exact le_refl _
      · exact le_of_not_lt (fun hlt => h2 ⟨hjlen, hlt⟩)
  · rw [if_neg h1] at h
    by_cases h2 : 2*n+2 < l.length ∧ (hget l (2*n+2)).dist < (hget l n).dist
    · rw [if_pos h2] at h
      cases h
      refine ⟨by omega, by omega, h2.1, h2.2, ?_⟩
      intro j hj hj0 hjlen
      have hcases : j = 2*n+1 ∨ j = 2*n+2 := by omega
      rcases hcases with rfl | rfl
      · have hnle : ¬((hget l (2*n+1)).dist < (hget l n).dist) :=
          fun hlt => h1 ⟨by omega, hlt⟩
        exact le_of_lt (lt_of_lt_of_le h2.2 (le_of_not_lt hnle))
      · exact le_refl _
    · rw [if_neg h2] at h
      cases h

theorem sinkStep_none_bound {l : List HeapEntry} {n : Nat}
    (h : sinkStep l n = none) :
    ∀ j, (j - 1) / 2 = n → 0 < j → j < l.length →
      (hget l n).dist ≤ (hget l j).dist := by
  unfold sinkStep at h
  by_cases h1 : 2*n+1 < l.length ∧ (hget l (2*n+1)).dist < (hget l n).dist
  · rw [if_pos h1] at h
    by_cases h2 : 2*n+2 < l.length ∧ (hget l (2*n+2)).dist < (hget l (2*n+1)).dist
    · rw [if_pos h2] at h
      cases h
    · rw [if_neg h2] at h
      cases h
  · rw [if_neg h1] at h
    by_cases h2 : 2*n+2 < l.length ∧ (hget l (2*n+2)).dist < (hget l n).dist
    · rw [if_pos h2] at h
      cases h
    · intro j hj hj0 hjlen
      have hcases : j = 2*n+1 ∨ j = 2*n+2 := by omega
      rcases hcases with rfl | rfl
      · exact le_of_not_lt (fun hlt => h1 ⟨hjlen, hlt⟩)
      · exact le_of_not_lt (fun hlt => h2 ⟨hjlen, hlt⟩)

theorem heapInv_of_downInv_none {l : List HeapEntry} {n : Nat}
    (hinv : DownInv l n) (hnone : sinkStep l n = none) : HeapInv l := by
  intro i hi0 hilen
  by_cases hpar : (i - 1) / 2 = n
  · rw [hpar]
    exact sinkStep_none_bound hnone i hpar hi0 hilen
  · exact hinv.1 i hi0 hilen hpar

theorem downInv_swap {l : List HeapEntry} {n s : Nat}
    (hsome : sinkStep l n = some s) (hinv : DownInv l n) :
    DownInv (hswap l n s) s := by
  obtain ⟨hsn, hns, hslen, hlt, hmin⟩ := sinkStep_facts hsome
  have hnlen : n < l.length := by omega
  obtain ⟨h1, h2⟩ := hinv
  constructor
  · intro i hi0 hilen hip
    rw [hswap_length] at hilen
    by_cases his : i = s
    · subst his
      rw [hsn, hget_hswap_left l hnlen hslen, hget_hswap_right l hnlen hslen]
      exact le_of_lt hlt
    · by_cases hin : i = n
      · have hn0 : 0 < n := by omega
        rw [hin]
        have hparn : (n - 1) / 2 ≠ n := by omega
        have hpars : (n - 1) / 2 ≠ s := by omega
        rw [hget_hswap_other l hparn hpars, hget_hswap_left l hnlen hslen]
        exact h2 hn0 s hslen hsn
      · by_cases hpar_n : (i - 1) / 2 = n
        · rw [hpar_n, hget_hswap_left l hnlen hslen,
            hget_hswap_other l hin his]
          exact hmin i hpar_n hi0 hilen
        · rw [hget_hswap_other l hpar_n hip, hget_hswap_other l hin his]
          exact h1 i hi0 hilen hpar_n
  · intro hs0 j hjlen hjs
    rw [hswap_length] at hjlen
    have hjn : j ≠ n := by omega
    have hjs2 : j ≠ s := by omega
    rw [hsn, hget_hswap_left l hnlen hslen, hget_hswap_other l hjn hjs2]
    have := h1 j (by omega) hjlen (by omega)
    rw [hjs] at this
    exact this

theorem sinkDown_heapInv_aux (k : Nat) :
    ∀ (l : List HeapEntry) (n : Nat), l.length - n ≤ k → DownInv l n →
      HeapInv (sinkDown l n) := by
  induction k with
  | zero =>
    intro l n hk hinv
    rw [sinkDown_eq]
    split
    · exact heapInv_of_downInv_none hinv (by assumption)
    · exfalso
      have := sinkStep_lt (by assumption)
      omega
  | succ k ih =>
    intro l n hk hinv
    rw [sinkDown_eq]
    split
    · exact heapInv_of_downInv_none hinv (by assumption)
    · rename_i s hsome
      apply ih
      · rw [hswap_length]
        have := sinkStep_lt hsome
        omega
      · exact downInv_swap hsome hinv

theorem sinkDown_heapInv (l : List HeapEntry) (n : Nat) (hinv : DownInv l n) :
    HeapInv (sinkDown l n) :=
  sinkDown_heapInv_aux l.length l n (by omega) hinv

theorem sinkDown_perm_aux (k : Nat) :
    ∀ (l : List HeapEntry) (n : Nat), l.length - n ≤ k →
      (sinkDown l n).Perm l := by
  induction k with
  | zero =>
    intro l n hk
    rw [sinkDown_eq]
    split
    · exact List.Perm.refl l
    · exfalso
      have := sinkStep_lt (by assumption)
      omega
  | succ k ih =>
    intro l n hk
    rw [sinkDown_eq]
    split
    · exact List.Perm.refl l
    · rename_i s hsome
      have hlt := sinkStep_lt hsome
      exact (ih _ s (by rw [hswap_length]; omega)).trans
        (hswap_perm l (by omega) (by omega))

theorem sinkDown_perm (l : List HeapEntry) (n : Nat) : (sinkDown l n).Perm l :=
  sinkDown_perm_aux l.length l n (by omega)


/-! ## `pop` lemmas -/

theorem hget_cons_succ (a : HeapEntry) (l : List HeapEntry) (m : Nat) :
    hget (a :: l) (m + 1) = hget l m := rfl

theorem hget_dropLast (l : List HeapEntry) (m : Nat) (h : m < l.length - 1) :
    hget l.dropLast m = hget l m := by
  rw [hget, hget, List.getD_eq_getElem?_getD, List.getD_eq_getElem?_getD,
    List.dropLast_eq_take, List.getElem?_take, if_pos h]

theorem hget_popinit (x y : HeapEntry) (ys : List HeapEntry) (k : Nat)
    (h1 : 0 < k) (h2 : k < ys.length + 1) :
    hget (((y :: ys).getLast (List.cons_ne_nil y ys)) :: (y :: ys).dropLast) k
      = hget (x :: y :: ys) k := by
  rcases k with _ | m
  · omega
  · rw [hget_cons_succ, hget_cons_succ]
    exact hget_dropLast (y :: ys) m (by simpa using h2)

theorem downInv_popinit (x y : HeapEntry) (ys : List HeapEntry)
    (hinv : HeapInv (x :: y :: ys)) :
    DownInv (((y :: ys).getLast (List.cons_ne_nil y ys)) :: (y :: ys).dropLast)
      0 := by
  constructor
  · intro i hi0 hilen hpar
    have hlen : (((y :: ys).getLast (List.cons_ne_nil y ys))
        :: (y :: ys).dropLast).length = ys.length + 1 := by
      simp
    rw [hlen] at hilen
    have hp0 : 0 < (i - 1) / 2 := Nat.pos_of_ne_zero hpar
    rw [hget_popinit x y ys i hi0 hilen,
        hget_popinit x y ys ((i - 1) / 2) hp0 (by omega)]
    exact hinv i hi0 (by simp; omega)
  · intro h0
    exact absurd h0 (lt_irrefl 0)

theorem heapInv_root_le (l : List HeapEntry) (hinv : HeapInv l) :
    ∀ i, i < l.length → (hget l 0).dist ≤ (hget l i).dist := by
  intro i
  induction i using Nat.strong_induction_on with
  | _ i ih =>
    intro hi
    rcases Nat.eq_zero_or_pos i with rfl | hpos
    · exact le_refl _
    · exact le_trans (ih ((i - 1) / 2) (by omega) (by omega)) (hinv i hpos hi)

theorem heapPop_none_iff (l : List HeapEntry) : heapPop l = none ↔ l = [] := by
  rcases l with _ | ⟨x, _ | ⟨y, ys⟩⟩ <;> simp [heapPop]

theorem heapPop_perm {l : List HeapEntry} {e : HeapEntry}
    {rest : List HeapEntry} (h : heapPop l = some (e, rest)) :
    l.Perm (e :: rest) := by
  rcases l with _ | ⟨x, _ | ⟨y, ys⟩⟩
  · simp [heapPop] at h
  · simp only [heapPop, Option.some.injEq, Prod.mk.injEq] at h
    obtain ⟨h1, h2⟩ := h
    rw [← h1, ← h2]
  · simp only [heapPop, Option.some.injEq, Prod.mk.injEq] at h
    obtain ⟨h1, h2⟩ := h
    rw [← h1, ← h2]
    refine List.Perm.cons x ?_
    have hperm1 : (sinkDown (((y :: ys).getLast (List.cons_ne_nil y ys))
        :: (y :: ys).dropLast) 0).Perm
        (((y :: ys).getLast (List.cons_ne_nil y ys)) :: (y :: ys).dropLast) :=
      sinkDown_perm _ 0
    have hperm2 : ((y :: ys).dropLast
        ++ [(y :: ys).getLast (List.cons_ne_nil y ys)]).Perm
        (((y :: ys).getLast (List.cons_ne_nil y ys)) :: (y :: ys).dropLast) :=
      List.perm_append_singleton _ _
    have heq : (y :: ys).dropLast
        ++ [(y :: ys).getLast (List.cons_ne_nil y ys)] = y :: ys :=
      List.dropLast_append_getLast (List.cons_ne_nil y ys)
    rw [heq] at hperm2
    exact hperm2.trans hperm1.symm

theorem heapPop_heapInv {l : List HeapEntry} {e : HeapEntry}
    {rest : List HeapEntry} (h : heapPop l = some (e, rest))
    (hinv : HeapInv l) : HeapInv rest := by
  rcases l with _ | ⟨x, _ | ⟨y, ys⟩⟩
  · simp [heapPop] at h
  · simp only [heapPop, Option.some.injEq, Prod.mk.injEq] at h
    obtain ⟨h1, h2⟩ := h
    rw [← h2]
    intro i hi0 hilen
    simp at hilen
  · simp only [heapPop, Option.some.injEq, Prod.mk.injEq] at h
    obtain ⟨h1, h2⟩ := h
    rw [← h2]
    exact sinkDown_heapInv _ 0 (downInv_popinit x y ys hinv)

theorem heapPop_min {l : List HeapEntry} {e : HeapEntry}
    {rest : List HeapEntry} (h : heapPop l = some (e, rest))
    (hinv : HeapInv l) : ∀ x ∈ l, e.dist ≤ x.dist := by
  have hroot : e = hget l 0 := by
    rcases l with _ | ⟨x, _ | ⟨y, ys⟩⟩
    · simp [heapPop] at h
    · simp only [heapPop, Option.some.injEq, Prod.mk.injEq] at h
      rw [← h.1]
      rfl
    · simp only [heapPop, Option.some.injEq, Prod.mk.injEq] at h
      rw [← h.1]
      rfl
  intro x hx
  obtain ⟨i, hi, hix⟩ := List.getElem_of_mem hx
  rw [hroot, ← hix, ← hget_eq_getElem l i hi]
  exact heapInv_root_le l hinv i hi


/-! ## The planner (`calculatePath`): Dijkstra over the adjacency cache -/

/-- The planner's mutable search state: `dists`, `prev`, the visited set and
the priority queue. -/
structure DState where
  dists : String → Option ℚ
  prev : String → Option String
  visited : List String
  heap : List HeapEntry

/-- The effective edge weight computed inline in `calculatePath`'s relaxation
loop.  (The preceding `if (edge.barrierFreeBlocked) continue` in the source
reads a property that adjacency entries never carry — `loadAllData` and
`buildGlobalGraph` drop it — so `undefined` is falsy and no edge is skipped;
the check therefore has no effect and does not appear here.) -/
def effWeight (accessibilityMode : Bool) (e : AdjEntry) : ℚ :=
  if accessibilityMode then
    if e.type = some "elevator" then e.dist * (1/10)
    else if e.type = some "stairs" then e.dist + 50000
    else e.dist
  else
    if e.type = some "elevator" then e.dist + 2000
    else e.dist

/-- `newDist < (dists[edge.to] ?? Infinity)`. -/
def ltOptD (a : ℚ) : Option ℚ → Bool
  | none => true
  | some d => decide (a < d)

/-- `minDist > (dists[minId] ?? Infinity)`. -/
def gtOptD (a : ℚ) : Option ℚ → Bool
  | none => false
  | some d => decide (d < a)

/-- Relaxation of one adjacency entry from the visited node `minId`. -/
def relaxEdge (acc : Bool) (minId : String) (minDist : ℚ) (st : DState)
    (e : AdjEntry) : DState :=
  let newDist := minDist + effWeight acc e
  if ltOptD newDist (st.dists e.toId) then
    { st with
      dists := fun v => if v = e.toId then some newDist else st.dists v,
      prev := fun v => if v = e.toId then some minId else st.prev v,
      heap := heapPush st.heap ⟨e.toId, newDist⟩ }
  else st

/-- `for (const edge of this.adj[minId]) { ... }`. -/
def relaxList (acc : Bool) (minId : String) (minDist : ℚ) (st : DState)
    (es : List AdjEntry) : DState :=
  es.foldl (relaxEdge acc minId minDist) st

/-- All node ids the search can ever see: the start plus every adjacency key
and entry target (used only to size the loop fuel). -/
def adjUniverse (adj : List (String × List AdjEntry)) (start : String) :
    List String :=
  start :: (adj.map (fun p => p.1 :: p.2.map (fun e => e.toId))).flatten

/-- Loop measure: heap size plus the total out-degree weight of the unvisited
universe. -/
def dPhi (adj : List (String × List AdjEntry)) (start : String) (st : DState) :
    Nat :=
  st.heap.length +
    ((((adjUniverse adj start).dedup).filter
        (fun u => decide (u ∉ st.visited))).map
      (fun u => (lookupAdj adj u).length + 1)).sum

/-- Enough fuel for the whole search. -/
def dijkstraFuel (adj : List (String × List AdjEntry)) (start : String) : Nat :=
  2 + (((adjUniverse adj start).dedup).map
    (fun u => (lookupAdj adj u).length + 1)).sum

/-- The `while (pq.size() > 0)` search loop.  The fuel argument only bounds the
number of iterations; `dijkstraFuel` is proven sufficient. -/
def dloop (adj : List (String × List AdjEntry)) (acc : Bool)
    (targets : List String) : Nat → DState → Option String × DState
  | 0, st => (none, st)
  | fuel + 1, st =>
    match heapPop st.heap with
    | none => (none, st)
    | some (en, rest) =>
      let st1 : DState := { st with heap := rest }
      if gtOptD en.dist (st1.dists en.id) then dloop adj acc targets fuel st1
      else if en.id ∈ st1.visited then dloop adj acc targets fuel st1
      else
        let st2 : DState := { st1 with visited := en.id :: st1.visited }
        if en.id ∈ targets then (some en.id, st2)
        else
          dloop adj acc targets fuel
            (relaxList acc en.id en.dist st2 (lookupAdj adj en.id))

/-- Path reconstruction:
`while (curr !== undefined) { path.unshift(curr); curr = prev[curr]; }`. -/
def reconstruct (prev : String → Option String) :
    Nat → String → List String → List String
  | 0, curr, acc => curr :: acc
  | n + 1, curr, acc =>
    match prev curr with
    | none => curr :: acc
    | some u => reconstruct prev n u (curr :: acc)

/-- `n.name && n.name.includes(k)`. -/
def nameIncludes (name : Option String) (k : String) : Bool :=
  match name with
  | some s => decide (k.toList <:+: s.toList)
  | none => false

/-- The resolved target-id set of `calculatePath` (a type/keyword query for the
`NEAREST_*` specials, otherwise the resolved end node). -/
def resolveTargets (st : EngineState) (endId : String) : List String :=
  if endId = "NEAREST_MALE" ∨ endId = "NEAREST_FEMALE"
      ∨ endId = "NEAREST_VENDING" then
    if endId = "NEAREST_VENDING" then
      (st.globalNodes.filter (fun n => n.type == "vending")).map (fun n => n.id)
    else
      (st.globalNodes.filter (fun n =>
        n.type == "toilet" &&
          (if endId = "NEAREST_MALE" then ["男性", "男子"] else ["女性", "女子"]).any
            (fun k => nameIncludes n.name k))).map (fun n => n.id)
  else
    match alGet st.idMap endId with
    | some eNode => [eNode.id]
    | none => []

/-- The initial search state of a plan from node id `s`. -/
def dInit (s : String) : DState :=
  { dists := fun v => if v = s then some 0 else none,
    prev := fun _ => none, visited := [], heap := [⟨s, 0⟩] }

/-- `calculatePath(startId, endId)`: returns the path and the updated engine
state (stored path and cleared start marker). -/
def calculatePath (st0 : EngineState) (startId endId : String) :
    List String × EngineState :=
  let st := { st0 with path := [], startNode := none }
  match alGet st.idMap startId with
  | none => ([], st)
  | some sNode =>
    let targetIds := resolveTargets st endId
    if targetIds.isEmpty then ([], st)
    else
      -- rebuild when the adjacency cache has no keys
      let st := if st.adj.isEmpty then buildGlobalGraph st else st
      let res := dloop st.adj st.accessibilityMode targetIds
        (dijkstraFuel st.adj sNode.id) (dInit sNode.id)
      match res.1 with
      | none => ([], st)
      | some t =>
        let p := reconstruct res.2.prev res.2.visited.length t []
        (p, { st with path := p })

/-! ## Semantics: walks, path costs, reconstruction chains -/

/-- A walk in the adjacency cache, weighted by the effective weights of the
current accessibility mode. -/
inductive Walk (adj : List (String × List AdjEntry)) (acc : Bool) :
    String → String → ℚ → Prop
  | nil (u : String) : Walk adj acc u u 0
  | cons {w : String} {c : ℚ} (u : String) (e : AdjEntry)
      (he : e ∈ lookupAdj adj u) (tail : Walk adj acc e.toId w c) :
      Walk adj acc u w (effWeight acc e + c)

def Reachable (adj : List (String × List AdjEntry)) (acc : Bool)
    (s t : String) : Prop :=
  ∃ c, Walk adj acc s t c

/-- The total effective weight of a node-id sequence, requiring consecutive
nodes to be adjacent in the cache. -/
inductive PathCost (adj : List (String × List AdjEntry)) (acc : Bool) :
    List String → ℚ → Prop
  | single (v : String) : PathCost adj acc [v] 0
  | cons {b : String} {rest : List String} {c : ℚ} (a : String) (e : AdjEntry)
      (he : e ∈ lookupAdj adj a) (ht : e.toId = b)
      (tail : PathCost adj acc (b :: rest) c) :
      PathCost adj acc (a :: b :: rest) (effWeight acc e + c)

/-- All effective weights of the adjacency cache are non-negative. -/
def AdjNonneg (adj : List (String × List AdjEntry)) (acc : Bool) : Prop :=
  ∀ p ∈ adj, ∀ e ∈ p.2, 0 ≤ effWeight acc e

/-- The predecessor chain recorded by the search, together with the
corresponding distance telescoping (heap-independent). -/
inductive Chain (adj : List (String × List AdjEntry)) (acc : Bool)
    (dists : String → Option ℚ) (prev : String → Option String)
    (visited : List String) (start : String) : Nat → String → Prop
  | base : Chain adj acc dists prev visited start 0 start
  | step {n : Nat} {u v : String} {du d : ℚ} (e : AdjEntry) :
      prev v = some u → u ∈ visited → e ∈ lookupAdj adj u → e.toId = v →
      dists u = some du → dists v = some d → du + effWeight acc e = d →
      Chain adj acc dists prev visited start n u →
      Chain adj acc dists prev visited start (n + 1) v

/-- The search-loop invariant. -/
structure DInv (adj : List (String × List AdjEntry)) (acc : Bool)
    (start : String) (st : DState) : Prop where
  hheap : HeapInv st.heap
  heapU : ∀ en ∈ st.heap, en.id ∈ adjUniverse adj start
  visU : ∀ v ∈ st.visited, v ∈ adjUniverse adj start
  dSound : ∀ v d, st.dists v = some d → Walk adj acc start v d
  heapGe : ∀ en ∈ st.heap, ∃ d, st.dists en.id = some d ∧ d ≤ en.dist
  unvisHeap : ∀ v d, st.dists v = some d → v ∉ st.visited →
    ∃ en ∈ st.heap, en.id = v ∧ en.dist = d
  settledMin : ∀ v ∈ st.visited, ∃ d, st.dists v = some d ∧
    ∀ c, Walk adj acc start v c → d ≤ c
  settledRelax : ∀ u ∈ st.visited, ∀ e ∈ lookupAdj adj u,
    ∃ du d2, st.dists u = some du ∧ st.dists e.toId = some d2 ∧
      d2 ≤ du + effWeight acc e
  startD : st.dists start = some 0
  startPrev : st.prev start = none
  chain : ∀ v d, st.dists v = some d →
    ∃ n ≤ st.visited.length, Chain adj acc st.dists st.prev st.visited start n v

/-! ## Basic lemmas about walks, path costs and chains -/

theorem alGet_mem {α : Type} {m : List (String × α)} {k : String} {v : α}
    (h : alGet m k = some v) : (k, v) ∈ m := by
  induction m with
  | nil => simp [alGet] at h
  | cons p rest ih =>
    obtain ⟨k', v'⟩ := p
    by_cases h0 : k' = k
    · subst h0
      have h' : (if k' = k' then some v' else alGet rest k') = some v := h
      rw [if_pos rfl] at h'
      have hv : v' = v := Option.some.inj h'
      exact hv ▸ List.mem_cons_self _ _
    · have h' : (if k' = k then some v' else alGet rest k) = some v := h
      rw [if_neg h0] at h'
      exact List.mem_cons_of_mem _ (ih h')

theorem mem_lookupAdj {adj : List (String × List AdjEntry)} {u : String}
    {e : AdjEntry} (he : e ∈ lookupAdj adj u) :
    ∃ es, alGet adj u = some es ∧ e ∈ es := by
  unfold lookupAdj at he
  cases hg : alGet adj u with
  | none => rw [hg] at he; simp at he
  | some es => rw [hg] at he; exact ⟨es, rfl, he⟩

theorem adjNonneg_lookup {adj : List (String × List AdjEntry)} {acc : Bool}
    (h : AdjNonneg adj acc) :
    ∀ u : String, ∀ e ∈ lookupAdj adj u, 0 ≤ effWeight acc e := by
  intro u e he
  obtain ⟨es, hg, hme⟩ := mem_lookupAdj he
  exact h (u, es) (alGet_mem hg) e hme

theorem walk_nonneg {adj : List (String × List AdjEntry)} {acc : Bool}
    (hnn : AdjNonneg adj acc) {s t : String} {c : ℚ}
    (w : Walk adj acc s t c) : 0 ≤ c := by
  induction w with
  | nil => exact le_refl 0
  | cons u e he tail ih =>
    have := adjNonneg_lookup hnn u e he
    linarith

theorem walk_snoc {adj : List (String × List AdjEntry)} {acc : Bool} :
    ∀ {s u : String} {c : ℚ}, Walk adj acc s u c →
    ∀ e ∈ lookupAdj adj u, Walk adj acc s e.toId (c + effWeight acc e) := by
  intro s u c w
  induction w with
  | nil v =>
    intro e he
    have h : Walk adj acc v e.toId (effWeight acc e + 0) :=
      Walk.cons v e he (Walk.nil e.toId)
    rw [add_zero] at h
    rw [zero_add]
    exact h
  | cons u' e' he' tail ih =>
    intro e he
    have h := Walk.cons u' e' he' (ih e he)
    rw [add_assoc]
    exact h

theorem start_mem_universe (adj : List (String × List AdjEntry))
    (start : String) : start ∈ adjUniverse adj start :=
  List.mem_cons_self _ _

theorem toId_mem_universe {adj : List (String × List AdjEntry)} {u : String}
    {e : AdjEntry} (he : e ∈ lookupAdj adj u) (start : String) :
    e.toId ∈ adjUniverse adj start := by
  obtain ⟨es, hg, hme⟩ := mem_lookupAdj he
  have hm : (u, es) ∈ adj := alGet_mem hg
  unfold adjUniverse
  refine List.mem_cons_of_mem _ ?_
  rw [List.mem_flatten]
  refine ⟨u :: es.map (fun e => e.toId), ?_, ?_⟩
  · exact List.mem_map_of_mem (fun p => p.1 :: p.2.map (fun e => e.toId)) hm
  · exact List.mem_cons_of_mem _ (List.mem_map_of_mem _ hme)

theorem chain_mono {adj : List (String × List AdjEntry)} {acc : Bool}
    {dists : String → Option ℚ} {prev : String → Option String}
    {visited visited' : List String} {start : String}
    (hsub : ∀ x ∈ visited, x ∈ visited') :
    ∀ {n : Nat} {v : String}, Chain adj acc dists prev visited start n v →
      Chain adj acc dists prev visited' start n v := by
  intro n v h
  induction h with
  | base => exact Chain.base
  | step e h1 h2 h3 h4 h5 h6 h7 _ ih =>
    exact Chain.step e h1 (hsub _ h2) h3 h4 h5 h6 h7 ih

theorem chain_update_stable {adj : List (String × List AdjEntry)} {acc : Bool}
    {dists dists' : String → Option ℚ} {prev prev' : String → Option String}
    {visited : List String} {start w : String}
    (hw : w ∉ visited)
    (hd : ∀ x, x ≠ w → dists' x = dists x)
    (hp : ∀ x, x ≠ w → prev' x = prev x) :
    ∀ {n : Nat} {v : String}, Chain adj acc dists prev visited start n v →
      v ≠ w → Chain adj acc dists' prev' visited start n v := by
  intro n v h
  induction h with
  | base => intro _; exact Chain.base
  | @step n u v du d e h1 h2 h3 h4 h5 h6 h7 _ ih =>
    intro hv
    have huw : u ≠ w := fun hq => hw (hq ▸ h2)
    exact Chain.step e (by rw [hp _ hv]; exact h1) h2 h3 h4
      (by rw [hd _ huw]; exact h5) (by rw [hd _ hv]; exact h6) h7 (ih huw)

theorem pathCost_snoc {adj : List (String × List AdjEntry)} {acc : Bool} :
    ∀ {p : List String} {c : ℚ}, PathCost adj acc p c →
    ∀ u, p.getLast? = some u → ∀ e ∈ lookupAdj adj u,
    PathCost adj acc (p ++ [e.toId]) (c + effWeight acc e) := by
  intro p c h
  induction h with
  | single v =>
    intro u hu e he
    simp only [List.getLast?_singleton, Option.some.injEq] at hu
    subst hu
    have h2 : PathCost adj acc [v, e.toId] (effWeight acc e + 0) :=
      PathCost.cons v e he rfl (PathCost.single e.toId)
    rw [add_zero] at h2
    rw [List.singleton_append, zero_add]
    exact h2
  | @cons b rest c a e he ht tail ih =>
    intro u hu e' he'
    have hu' : (b :: rest).getLast? = some u := by
      rw [← hu]
      rfl
    have h2 := ih u hu' e' he'
    have h3 := PathCost.cons a e he ht h2
    rw [List.cons_append, List.cons_append]
    rw [add_assoc]
    exact h3

theorem pathCost_chain' {adj : List (String × List AdjEntry)} {acc : Bool} :
    ∀ {p : List String} {c : ℚ}, PathCost adj acc p c →
    p.Chain' (fun a b => ∃ e ∈ lookupAdj adj a, e.toId = b) := by
  intro p c h
  induction h with
  | single v => simp
  | cons a e he ht tail ih => exact List.chain'_cons.mpr ⟨⟨e, he, ht⟩, ih⟩

theorem sum_filter_le (us : List String) (f : String → Nat)
    (p : String → Bool) :
    ((us.filter p).map f).sum ≤ (us.map f).sum := by
  induction us with
  | nil => simp
  | cons a l ih =>
    rw [List.filter_cons]
    by_cases h : p a = true
    · rw [if_pos h]
      simp only [List.map_cons, List.sum_cons]
      omega
    · rw [if_neg h]
      simp only [List.map_cons, List.sum_cons]
      omega

theorem sum_filter_visited_cons (f : String → Nat) (vis : List String)
    (m : String) :
    ∀ us : List String, us.Nodup → m ∈ us → m ∉ vis →
    ((us.filter (fun u => decide (u ∉ m :: vis))).map f).sum + f m =
    ((us.filter (fun u => decide (u ∉ vis))).map f).sum := by
  intro us
  induction us with
  | nil => intro _ hm _; simp at hm
  | cons a l ih =>
    intro hnd hm hmv
    rw [List.nodup_cons] at hnd
    rcases List.mem_cons.mp hm with h | h
    · subst h
      rw [List.filter_cons, List.filter_cons]
      rw [if_neg (by simp), if_pos (by simp [hmv])]
      have hfl : l.filter (fun u => decide (u ∉ m :: vis)) =
          l.filter (fun u => decide (u ∉ vis)) := by
        refine List.filter_congr ?_
        intro x hx
        have hxa : x ≠ m := fun hq => hnd.1 (hq ▸ hx)
        simp [List.mem_cons, hxa]
      rw [hfl]
      simp only [List.map_cons, List.sum_cons]
      omega
    · have ham : a ≠ m := fun hq => hnd.1 (hq ▸ h)
      have hqq : (decide (a ∉ m :: vis) : Bool) = decide (a ∉ vis) := by
        simp only [List.mem_cons, decide_not]
        by_cases hv : a ∈ vis
        · simp [hv]
        · simp [hv, ham]
      rw [List.filter_cons, List.filter_cons, hqq]
      by_cases hq : (decide (a ∉ vis)) = true
      · rw [if_pos hq, if_pos hq]
        simp only [List.map_cons, List.sum_cons]
        rw [← ih hnd.2 h hmv]
        omega
      · rw [if_neg hq, if_neg hq]
        exact ih hnd.2 h hmv

theorem heapPush_length (l : List HeapEntry) (v : HeapEntry) :
    (heapPush l v).length = l.length + 1 := by
  have := (heapPush_perm l v).length_eq
  simpa using this

theorem relaxEdge_eq (acc : Bool) (m : String) (dm : ℚ) (st : DState)
    (e : AdjEntry) :
    relaxEdge acc m dm st e =
      if ltOptD (dm + effWeight acc e) (st.dists e.toId) then
        { dists := fun v =>
            if v = e.toId then some (dm + effWeight acc e) else st.dists v,
          prev := fun v => if v = e.toId then some m else st.prev v,
          visited := st.visited,
          heap := heapPush st.heap ⟨e.toId, dm + effWeight acc e⟩ }
      else st := rfl

theorem relaxEdge_heap_le (acc : Bool) (m : String) (dm : ℚ) (st : DState)
    (e : AdjEntry) :
    (relaxEdge acc m dm st e).heap.length ≤ st.heap.length + 1 := by
  rw [relaxEdge_eq]
  split
  · simp [heapPush_length]
  · omega

theorem relaxEdge_visited (acc : Bool) (m : String) (dm : ℚ) (st : DState)
    (e : AdjEntry) : (relaxEdge acc m dm st e).visited = st.visited := by
  rw [relaxEdge_eq]
  split <;> rfl

theorem relaxList_visited (acc : Bool) (m : String) (dm : ℚ) :
    ∀ (es : List AdjEntry) (st : DState),
    (relaxList acc m dm st es).visited = st.visited := by
  intro es
  induction es with
  | nil => intro st; rfl
  | cons e es ih =>
    intro st
    show (relaxList acc m dm (relaxEdge acc m dm st e) es).visited = _
    rw [ih, relaxEdge_visited]

theorem relaxList_heap_le (acc : Bool) (m : String) (dm : ℚ) :
    ∀ (es : List AdjEntry) (st : DState),
    (relaxList acc m dm st es).heap.length ≤ st.heap.length + es.length := by
  intro es
  induction es with
  | nil => intro st; simp [relaxList]
  | cons e es ih =>
    intro st
    show (relaxList acc m dm (relaxEdge acc m dm st e) es).heap.length ≤ _
    have h1 := ih (relaxEdge acc m dm st e)
    have h2 := relaxEdge_heap_le acc m dm st e
    simp only [List.length_cons]
    omega

/-! ## The frontier cover lemma -/

/-- Any walk from the start to an unvisited node is covered by a heap entry
of no larger key. -/
theorem dinv_cover {adj : List (String × List AdjEntry)} {acc : Bool}
    {start : String} {st : DState} (hnn : AdjNonneg adj acc)
    (hinv : DInv adj acc start st) :
    ∀ v c, Walk adj acc start v c → v ∉ st.visited →
    ∃ en ∈ st.heap, en.dist ≤ c := by
  have aux : ∀ u v c, Walk adj acc u v c → ∀ du, st.dists u = some du →
      u ∈ st.visited → v ∉ st.visited → ∃ en ∈ st.heap, en.dist ≤ du + c := by
    intro u v c w
    induction w with
    | nil x => intro du _ hu hv; exact absurd hu hv
    | @cons w' c' u e he tail ih =>
      intro du hdu hu hv
      obtain ⟨du', d2, hdu', hd2, hle⟩ := hinv.settledRelax u hu e he
      rw [hdu] at hdu'
      have hdd : du = du' := Option.some.inj hdu'
      subst hdd
      by_cases hvv : e.toId ∈ st.visited
      · obtain ⟨en, hen, hle2⟩ := ih d2 hd2 hvv hv
        exact ⟨en, hen, by linarith⟩
      · obtain ⟨en, hen, hid, hdist⟩ := hinv.unvisHeap e.toId d2 hd2 hvv
        have hc' := walk_nonneg hnn tail
        exact ⟨en, hen, by rw [hdist]; linarith⟩
  intro v c w hv
  by_cases hs : start ∈ st.visited
  · obtain ⟨en, hen, hle⟩ := aux start v c w 0 hinv.startD hs hv
    exact ⟨en, hen, by linarith⟩
  · obtain ⟨en, hen, hid, hdist⟩ := hinv.unvisHeap start 0 hinv.startD hs
    exact ⟨en, hen, by rw [hdist]; exact walk_nonneg hnn w⟩

/-! ## The relaxation invariant -/

/-- Invariant maintained while relaxing the adjacency list of the freshly
visited node `m` (popped with key `dm`); `processed` are the entries already
relaxed. -/
structure RInv (adj : List (String × List AdjEntry)) (acc : Bool)
    (start m : String) (dm : ℚ) (processed : List AdjEntry)
    (st : DState) : Prop where
  hheap : HeapInv st.heap
  heapU : ∀ en ∈ st.heap, en.id ∈ adjUniverse adj start
  visU : ∀ v ∈ st.visited, v ∈ adjUniverse adj start
  dSound : ∀ v d, st.dists v = some d → Walk adj acc start v d
  heapGe : ∀ en ∈ st.heap, ∃ d, st.dists en.id = some d ∧ d ≤ en.dist
  unvisHeap : ∀ v d, st.dists v = some d → v ∉ st.visited →
    ∃ en ∈ st.heap, en.id = v ∧ en.dist = d
  settledMin : ∀ v ∈ st.visited, ∃ d, st.dists v = some d ∧
    ∀ c, Walk adj acc start v c → d ≤ c
  settledRelaxOld : ∀ u ∈ st.visited, u ≠ m → ∀ e ∈ lookupAdj adj u,
    ∃ du d2, st.dists u = some du ∧ st.dists e.toId = some d2 ∧
      d2 ≤ du + effWeight acc e
  settledRelaxM : ∀ e ∈ processed,
    ∃ d2, st.dists e.toId = some d2 ∧ d2 ≤ dm + effWeight acc e
  startD : st.dists start = some 0
  startPrev : st.prev start = none
  chain : ∀ v d, st.dists v = some d →
    ∃ n ≤ st.visited.length,
      Chain adj acc st.dists st.prev st.visited start n v
  mVis : m ∈ st.visited
  mDist : st.dists m = some dm
  chainM : ∃ nm, nm + 1 ≤ st.visited.length ∧
    Chain adj acc st.dists st.prev st.visited start nm m

theorem relaxEdge_rinv {adj : List (String × List AdjEntry)} {acc : Bool}
    {start m : String} {dm : ℚ} {processed : List AdjEntry} {st : DState}
    (hnn : AdjNonneg adj acc)
    (hri : RInv adj acc start m dm processed st) {e : AdjEntry}
    (he : e ∈ lookupAdj adj m) :
    RInv adj acc start m dm (processed ++ [e]) (relaxEdge acc m dm st e) := by
  have heff : 0 ≤ effWeight acc e := adjNonneg_lookup hnn m e he
  have hdm : 0 ≤ dm := walk_nonneg hnn (hri.dSound m dm hri.mDist)
  by_cases hlt : ltOptD (dm + effWeight acc e) (st.dists e.toId) = true
  case neg =>
    rw [relaxEdge_eq, if_neg hlt]
    have hd2 : ∃ d2, st.dists e.toId = some d2 ∧
        d2 ≤ dm + effWeight acc e := by
      cases hdw : st.dists e.toId with
      | none => rw [hdw] at hlt; exact absurd rfl hlt
      | some d2 =>
        rw [hdw] at hlt
        simp only [ltOptD, decide_eq_true_eq] at hlt
        exact ⟨d2, rfl, by linarith [not_lt.mp hlt]⟩
    exact { hri with
      settledRelaxM := by
        intro e' he'
        rcases List.mem_append.mp he' with h | h
        · exact hri.settledRelaxM e' h
        · rw [List.mem_singleton] at h
          subst h
          exact hd2 }
  case pos =>
    have hwalkw : Walk adj acc start e.toId (dm + effWeight acc e) :=
      walk_snoc (hri.dSound m dm hri.mDist) e he
    have hw_unvis : e.toId ∉ st.visited := by
      intro hmem
      obtain ⟨d, hd, hmin⟩ := hri.settledMin e.toId hmem
      rw [hd] at hlt
      simp only [ltOptD, decide_eq_true_eq] at hlt
      exact absurd (hmin _ hwalkw) (not_le.mpr hlt)
    have hw_nstart : e.toId ≠ start := by
      intro hq
      rw [hq, hri.startD] at hlt
      simp only [ltOptD, decide_eq_true_eq] at hlt
      linarith
    have hm_ne_w : m ≠ e.toId := fun h => hw_unvis (h ▸ hri.mVis)
    rw [relaxEdge_eq, if_pos hlt]
    set nd := dm + effWeight acc e with hnd
    set w := e.toId with hwdef
    -- component descriptions of the updated state
    have hdists' : ∀ x, x ≠ w →
        (if x = w then some nd else st.dists x) = st.dists x := by
      intro x hx; rw [if_neg hx]
    have hprev' : ∀ x, x ≠ w →
        (if x = w then some m else st.prev x) = st.prev x := by
      intro x hx; rw [if_neg hx]
    have hchainM' : ∃ nm, nm + 1 ≤ st.visited.length ∧
        Chain adj acc (fun v => if v = w then some nd else st.dists v)
          (fun v => if v = w then some m else st.prev v) st.visited start nm
          m := by
      obtain ⟨nm, hnm, hch⟩ := hri.chainM
      exact ⟨nm, hnm, chain_update_stable hw_unvis hdists' hprev' hch hm_ne_w⟩
    refine
      { hheap := heapPush_heapInv st.heap ⟨w, nd⟩ hri.hheap
        heapU := ?_
        visU := hri.visU
        dSound := ?_
        heapGe := ?_
        unvisHeap := ?_
        settledMin := ?_
        settledRelaxOld := ?_
        settledRelaxM := ?_
        startD := ?_
        startPrev := ?_
        chain := ?_
        mVis := hri.mVis
        mDist := ?_
        chainM := hchainM' }
    · intro en hen
      rcases List.mem_cons.mp
        ((heapPush_perm st.heap ⟨w, nd⟩).mem_iff.mp hen) with h | h
      · rw [h]
        exact toId_mem_universe he start
      · exact hri.heapU en h
    · intro v d hd
      dsimp only at hd
      by_cases hv : v = w
      · subst hv
        rw [if_pos rfl] at hd
        have hdnd : nd = d := Option.some.inj hd
        exact hdnd ▸ hwalkw
      · rw [if_neg hv] at hd
        exact hri.dSound v d hd
    · intro en hen
      dsimp only
      rcases List.mem_cons.mp
        ((heapPush_perm st.heap ⟨w, nd⟩).mem_iff.mp hen) with h | h
      · subst h
        exact ⟨nd, by rw [if_pos rfl], le_refl nd⟩
      · obtain ⟨d, hd, hle⟩ := hri.heapGe en h
        by_cases hv : en.id = w
        · refine ⟨nd, by rw [if_pos hv], ?_⟩
          rw [hv] at hd
          rw [hd] at hlt
          simp only [ltOptD, decide_eq_true_eq] at hlt
          linarith
        · exact ⟨d, by rw [if_neg hv]; exact hd, hle⟩
    · intro v d hd hv
      dsimp only at hd hv ⊢
      by_cases hvw : v = w
      · subst hvw
        rw [if_pos rfl] at hd
        have hdnd : nd = d := Option.some.inj hd
        refine ⟨⟨w, nd⟩, ?_, rfl, hdnd⟩
        exact (heapPush_perm st.heap ⟨w, nd⟩).mem_iff.mpr
          (List.mem_cons_self _ _)
      · rw [if_neg hvw] at hd
        obtain ⟨en, hen, hid, hdi⟩ := hri.unvisHeap v d hd hv
        exact ⟨en, (heapPush_perm st.heap ⟨w, nd⟩).mem_iff.mpr
          (List.mem_cons_of_mem _ hen), hid, hdi⟩
    · intro v hv
      dsimp only at hv ⊢
      have hvw : v ≠ w := fun hq => hw_unvis (hq ▸ hv)
      obtain ⟨d, hd, hmin⟩ := hri.settledMin v hv
      exact ⟨d, by rw [if_neg hvw]; exact hd, hmin⟩
    · intro u hu hum e' he'
      dsimp only at hu ⊢
      have huw : u ≠ w := fun hq => hw_unvis (hq ▸ hu)
      obtain ⟨du, d2, hdu, hd2, hle⟩ := hri.settledRelaxOld u hu hum e' he'
      refine ⟨du, ?_⟩
      by_cases hvw : e'.toId = w
      · refine ⟨nd, by rw [if_neg huw]; exact hdu, by rw [if_pos hvw], ?_⟩
        rw [hvw] at hd2
        rw [hd2] at hlt
        simp only [ltOptD, decide_eq_true_eq] at hlt
        linarith
      · exact ⟨d2, by rw [if_neg huw]; exact hdu,
          by rw [if_neg hvw]; exact hd2, hle⟩
    · intro e' he'
      dsimp only
      rcases List.mem_append.mp he' with h | h
      · obtain ⟨d2, hd2, hle⟩ := hri.settledRelaxM e' h
        by_cases hvw : e'.toId = w
        · refine ⟨nd, by rw [if_pos hvw], ?_⟩
          rw [hvw] at hd2
          rw [hd2] at hlt
          simp only [ltOptD, decide_eq_true_eq] at hlt
          linarith
        · exact ⟨d2, by rw [if_neg hvw]; exact hd2, hle⟩
      · rw [List.mem_singleton] at h
        subst h
        exact ⟨nd, by rw [if_pos rfl], le_refl _⟩
    · show (if start = w then some nd else st.dists start) = some 0
      rw [if_neg (Ne.symm hw_nstart)]
      exact hri.startD
    · show (if start = w then some m else st.prev start) = none
      rw [if_neg (Ne.symm hw_nstart)]
      exact hri.startPrev
    · intro v d hd
      dsimp only at hd ⊢
      by_cases hvw : v = w
      · subst hvw
        obtain ⟨nm, hnm, hch⟩ := hchainM'
        refine ⟨nm + 1, hnm, ?_⟩
        rw [if_pos rfl] at hd
        have hdnd : nd = d := Option.some.inj hd
        refine Chain.step e (by rw [if_pos rfl]) hri.mVis he rfl
          (by rw [if_neg hm_ne_w]; exact hri.mDist)
          (by rw [if_pos rfl, hdnd]) hdnd hch
      · rw [if_neg hvw] at hd
        obtain ⟨n, hn, hch⟩ := hri.chain v d hd
        exact ⟨n, hn, chain_update_stable hw_unvis hdists' hprev' hch hvw⟩
    · show (if m = w then some nd else st.dists m) = some dm
      rw [if_neg hm_ne_w]
      exact hri.mDist

theorem relaxList_rinv {adj : List (String × List AdjEntry)} {acc : Bool}
    {start m : String} {dm : ℚ} (hnn : AdjNonneg adj acc) :
    ∀ (es pro : List AdjEntry) (st : DState),
    RInv adj acc start m dm pro st → (∀ e ∈ es, e ∈ lookupAdj adj m) →
    RInv adj acc start m dm (pro ++ es) (relaxList acc m dm st es) := by
  intro es
  induction es with
  | nil =>
    intro pro st h _
    simpa using h
  | cons e es ih =>
    intro pro st h hsub
    have h1 := relaxEdge_rinv hnn h (hsub e (List.mem_cons_self _ _))
    have h2 := ih (pro ++ [e]) (relaxEdge acc m dm st e) h1
      (fun e' he' => hsub e' (List.mem_cons_of_mem _ he'))
    have hl : pro ++ e :: es = (pro ++ [e]) ++ es := by simp
    rw [hl]
    exact h2

theorem dinv_of_rinv {adj : List (String × List AdjEntry)} {acc : Bool}
    {start m : String} {dm : ℚ} {st : DState}
    (h : RInv adj acc start m dm (lookupAdj adj m) st) :
    DInv adj acc start st :=
  { hheap := h.hheap
    heapU := h.heapU
    visU := h.visU
    dSound := h.dSound
    heapGe := h.heapGe
    unvisHeap := h.unvisHeap
    settledMin := h.settledMin
    settledRelax := by
      intro u hu e he
      by_cases hum : u = m
      · subst hum
        obtain ⟨d2, hd2, hle⟩ := h.settledRelaxM e he
        exact ⟨dm, d2, h.mDist, hd2, hle⟩
      · exact h.settledRelaxOld u hu hum e he
    startD := h.startD
    startPrev := h.startPrev
    chain := h.chain }

/-- Entering the visit step: popping an up-to-date unvisited entry and marking
it visited establishes the relaxation invariant with nothing processed yet. -/
theorem visit_rinv {adj : List (String × List AdjEntry)} {acc : Bool}
    {start : String} {st : DState} {en : HeapEntry} {rest : List HeapEntry}
    (hnn : AdjNonneg adj acc) (hinv : DInv adj acc start st)
    (hpop : heapPop st.heap = some (en, rest))
    (hdist_eq : st.dists en.id = some en.dist)
    (hnv : en.id ∉ st.visited) :
    RInv adj acc start en.id en.dist []
      { dists := st.dists, prev := st.prev,
        visited := en.id :: st.visited, heap := rest } := by
  have hperm := heapPop_perm hpop
  have hmem_en : en ∈ st.heap := hperm.mem_iff.mpr (List.mem_cons_self _ _)
  have hrest_sub : ∀ x ∈ rest, x ∈ st.heap := fun x hx =>
    hperm.mem_iff.mpr (List.mem_cons_of_mem _ hx)
  have hmin : ∀ c, Walk adj acc start en.id c → en.dist ≤ c := by
    intro c w
    obtain ⟨en', hen', hle'⟩ := dinv_cover hnn hinv en.id c w hnv
    exact le_trans (heapPop_min hpop hinv.hheap en' hen') hle'
  refine
    { hheap := heapPop_heapInv hpop hinv.hheap
      heapU := fun x hx => hinv.heapU x (hrest_sub x hx)
      visU := ?_
      dSound := hinv.dSound
      heapGe := fun x hx => hinv.heapGe x (hrest_sub x hx)
      unvisHeap := ?_
      settledMin := ?_
      settledRelaxOld := ?_
      settledRelaxM := by intro e he; simp at he
      startD := hinv.startD
      startPrev := hinv.startPrev
      chain := ?_
      mVis := List.mem_cons_self _ _
      mDist := hdist_eq
      chainM := ?_ }
  · intro v hv
    rcases List.mem_cons.mp hv with h | h
    · exact h ▸ hinv.heapU en hmem_en
    · exact hinv.visU v h
  · intro v d hd hv
    dsimp only at hd hv ⊢
    have hvne : v ≠ en.id := fun hq => hv (hq ▸ List.mem_cons_self _ _)
    have hvv : v ∉ st.visited := fun hq => hv (List.mem_cons_of_mem _ hq)
    obtain ⟨en', hen', hid, hdi⟩ := hinv.unvisHeap v d hd hvv
    have hne : en' ≠ en := by
      intro hq
      rw [hq] at hid
      exact hvne hid.symm
    rcases List.mem_cons.mp (hperm.mem_iff.mp hen') with h | h
    · exact absurd h hne
    · exact ⟨en', h, hid, hdi⟩
  · intro v hv
    rcases List.mem_cons.mp hv with h | h
    · subst h
      exact ⟨en.dist, hdist_eq, hmin⟩
    · exact hinv.settledMin v h
  · intro u hu hum e he
    rcases List.mem_cons.mp hu with h | h
    · exact absurd h hum
    · exact hinv.settledRelax u h e he
  · intro v d hd
    obtain ⟨n, hn, hch⟩ := hinv.chain v d hd
    exact ⟨n, by simp only [List.length_cons]; omega,
      chain_mono (fun x hx => List.mem_cons_of_mem _ hx) hch⟩
  · obtain ⟨n, hn, hch⟩ := hinv.chain en.id en.dist hdist_eq
    exact ⟨n, by simp only [List.length_cons]; omega,
      chain_mono (fun x hx => List.mem_cons_of_mem _ hx) hch⟩

/-- Popping a stale or already-visited entry preserves the invariant. -/
theorem dinv_skip {adj : List (String × List AdjEntry)} {acc : Bool}
    {start : String} {st : DState} {en : HeapEntry} {rest : List HeapEntry}
    (hinv : DInv adj acc start st)
    (hpop : heapPop st.heap = some (en, rest))
    (hne : ∀ v d', st.dists v = some d' → v ∉ st.visited →
      ¬(v = en.id ∧ d' = en.dist)) :
    DInv adj acc start { st with heap := rest } := by
  have hperm := heapPop_perm hpop
  have hrest_sub : ∀ x ∈ rest, x ∈ st.heap := fun x hx =>
    hperm.mem_iff.mpr (List.mem_cons_of_mem _ hx)
  refine
    { hheap := heapPop_heapInv hpop hinv.hheap
      heapU := fun x hx => hinv.heapU x (hrest_sub x hx)
      visU := hinv.visU
      dSound := hinv.dSound
      heapGe := fun x hx => hinv.heapGe x (hrest_sub x hx)
      unvisHeap := ?_
      settledMin := hinv.settledMin
      settledRelax := hinv.settledRelax
      startD := hinv.startD
      startPrev := hinv.startPrev
      chain := hinv.chain }
  intro v d hd hv
  obtain ⟨en', hen', hid, hdi⟩ := hinv.unvisHeap v d hd hv
  have hneq : en' ≠ en := by
    intro hq
    exact hne v d hd hv ⟨by rw [← hid, hq], by rw [← hdi, hq]⟩
  rcases List.mem_cons.mp (hperm.mem_iff.mp hen') with h | h
  · exact absurd h hneq
  · exact ⟨en', h, hid, hdi⟩

/-! ## Unfolding lemmas for the search loop -/

theorem dloop_succ_none {adj : List (String × List AdjEntry)} {acc : Bool}
    {targets : List String} {fuel : Nat} {st : DState}
    (h : heapPop st.heap = none) :
    dloop adj acc targets (fuel + 1) st = (none, st) := by
  simp only [dloop, h]

theorem dloop_succ_stale {adj : List (String × List AdjEntry)} {acc : Bool}
    {targets : List String} {fuel : Nat} {st : DState} {en : HeapEntry}
    {rest : List HeapEntry} (h : heapPop st.heap = some (en, rest))
    (hst : gtOptD en.dist (st.dists en.id) = true) :
    dloop adj acc targets (fuel + 1) st =
      dloop adj acc targets fuel { st with heap := rest } := by
  simp only [dloop, h, hst, if_true]

theorem dloop_succ_visited {adj : List (String × List AdjEntry)} {acc : Bool}
    {targets : List String} {fuel : Nat} {st : DState} {en : HeapEntry}
    {rest : List HeapEntry} (h : heapPop st.heap = some (en, rest))
    (hst : ¬ gtOptD en.dist (st.dists en.id) = true)
    (hv : en.id ∈ st.visited) :
    dloop adj acc targets (fuel + 1) st =
      dloop adj acc targets fuel { st with heap := rest } := by
  simp only [dloop, h]
  rw [if_neg hst, if_pos hv]

theorem dloop_succ_target {adj : List (String × List AdjEntry)} {acc : Bool}
    {targets : List String} {fuel : Nat} {st : DState} {en : HeapEntry}
    {rest : List HeapEntry} (h : heapPop st.heap = some (en, rest))
    (hst : ¬ gtOptD en.dist (st.dists en.id) = true)
    (hv : en.id ∉ st.visited) (ht : en.id ∈ targets) :
    dloop adj acc targets (fuel + 1) st =
      (some en.id,
        ({ dists := st.dists
           prev := st.prev
           visited := en.id :: st.visited
           heap := rest } : DState)) := by
  simp only [dloop, h]
  rw [if_neg hst, if_neg hv, if_pos ht]

theorem dloop_succ_relax {adj : List (String × List AdjEntry)} {acc : Bool}
    {targets : List String} {fuel : Nat} {st : DState} {en : HeapEntry}
    {rest : List HeapEntry} (h : heapPop st.heap = some (en, rest))
    (hst : ¬ gtOptD en.dist (st.dists en.id) = true)
    (hv : en.id ∉ st.visited) (ht : en.id ∉ targets) :
    dloop adj acc targets (fuel + 1) st =
      dloop adj acc targets fuel
        (relaxList acc en.id en.dist
          ({ dists := st.dists
             prev := st.prev
             visited := en.id :: st.visited
             heap := rest } : DState)
          (lookupAdj adj en.id)) := by
  simp only [dloop, h]
  rw [if_neg hst, if_neg hv, if_neg ht]

/-! ## The master loop theorem -/

/-- Postcondition of the search loop: on `none` the queue is exhausted with no
target visited; on `some t` the found target carries a minimal distance over
all walks to any target, together with a bounded predecessor chain. -/
def DPost (adj : List (String × List AdjEntry)) (acc : Bool)
    (start : String) (targets : List String)
    (r : Option String × DState) : Prop :=
  (r.1 = none → DInv adj acc start r.2 ∧ r.2.heap = [] ∧
    ∀ t ∈ targets, t ∉ r.2.visited) ∧
  (∀ t, r.1 = some t → t ∈ targets ∧ r.2.prev start = none ∧
    r.2.dists start = some 0 ∧
    ∃ dt, r.2.dists t = some dt ∧ Walk adj acc start t dt ∧
      (∀ t' ∈ targets, ∀ c, Walk adj acc start t' c → dt ≤ c) ∧
      ∃ n ≤ r.2.visited.length,
        Chain adj acc r.2.dists r.2.prev r.2.visited start n t)

theorem dloop_spec {adj : List (String × List AdjEntry)} {acc : Bool}
    {start : String} (targets : List String) (hnn : AdjNonneg adj acc) :
    ∀ (fuel : Nat) (st : DState), DInv adj acc start st →
    dPhi adj start st < fuel → (∀ t ∈ targets, t ∉ st.visited) →
    DPost adj acc start targets (dloop adj acc targets fuel st) := by
  intro fuel
  induction fuel with
  | zero =>
    intro st _ hphi _
    exact absurd hphi (Nat.not_lt_zero _)
  | succ fuel ih =>
    intro st hinv hphi htar
    cases hpop : heapPop st.heap with
    | none =>
      rw [dloop_succ_none hpop]
      refine ⟨fun _ => ⟨hinv, (heapPop_none_iff st.heap).mp hpop, htar⟩, ?_⟩
      intro t ht
      simp at ht
    | some p =>
      obtain ⟨en, rest⟩ := p
      have hperm := heapPop_perm hpop
      have hmem_en : en ∈ st.heap := hperm.mem_iff.mpr (List.mem_cons_self _ _)
      have hrl : st.heap.length = rest.length + 1 := by
        have h := hperm.length_eq
        simpa using h
      have hphi1 : dPhi adj start { st with heap := rest } < fuel := by
        unfold dPhi at hphi ⊢
        dsimp only at hphi ⊢
        omega
      by_cases hstale : gtOptD en.dist (st.dists en.id) = true
      · rw [dloop_succ_stale hpop hstale]
        refine ih _ (dinv_skip hinv hpop ?_) hphi1 htar
        intro v d' hd' hnv hc
        obtain ⟨h1, h2⟩ := hc
        rw [h1] at hd'
        rw [hd'] at hstale
        simp only [gtOptD, decide_eq_true_eq] at hstale
        rw [h2] at hstale
        exact lt_irrefl _ hstale
      · by_cases hvis : en.id ∈ st.visited
        · rw [dloop_succ_visited hpop hstale hvis]
          refine ih _ (dinv_skip hinv hpop ?_) hphi1 htar
          intro v d' hd' hnv hc
          exact hnv (hc.1 ▸ hvis)
        · obtain ⟨d0, hd0, hle0⟩ := hinv.heapGe en hmem_en
          have hdist_eq : st.dists en.id = some en.dist := by
            rw [hd0] at hstale
            simp only [gtOptD, decide_eq_true_eq] at hstale
            rw [hd0, le_antisymm hle0 (not_lt.mp hstale)]
          have hminw : ∀ t' ∈ targets, ∀ c, Walk adj acc start t' c →
              en.dist ≤ c := by
            intro t' ht' c w
            obtain ⟨en', hen', hle'⟩ := dinv_cover hnn hinv t' c w (htar t' ht')
            exact le_trans (heapPop_min hpop hinv.hheap en' hen') hle'
          by_cases htgt : en.id ∈ targets
          · rw [dloop_succ_target hpop hstale hvis htgt]
            constructor
            · intro h
              simp at h
            · intro t ht
              have hid : en.id = t := by simpa using ht
              subst hid
              dsimp only
              refine ⟨htgt, hinv.startPrev, hinv.startD, en.dist, hdist_eq,
                hinv.dSound _ _ hdist_eq, hminw, ?_⟩
              obtain ⟨n, hn, hch⟩ := hinv.chain en.id en.dist hdist_eq
              refine ⟨n, ?_,
                chain_mono (fun x hx => List.mem_cons_of_mem _ hx) hch⟩
              simp only [List.length_cons]
              omega
          · rw [dloop_succ_relax hpop hstale hvis htgt]
            have hri0 := visit_rinv hnn hinv hpop hdist_eq hvis
            have hriF := relaxList_rinv hnn (lookupAdj adj en.id) []
              { dists := st.dists, prev := st.prev,
                visited := en.id :: st.visited, heap := rest } hri0
              (fun e he => he)
            rw [List.nil_append] at hriF
            have hinv3 := dinv_of_rinv hriF
            have hvis3 :
                (relaxList acc en.id en.dist
                  { dists := st.dists, prev := st.prev,
                    visited := en.id :: st.visited, heap := rest }
                  (lookupAdj adj en.id)).visited = en.id :: st.visited := by
              rw [relaxList_visited]
            have hlen3 :
                (relaxList acc en.id en.dist
                  { dists := st.dists, prev := st.prev,
                    visited := en.id :: st.visited, heap := rest }
                  (lookupAdj adj en.id)).heap.length ≤
                rest.length + (lookupAdj adj en.id).length := by
              have h := relaxList_heap_le acc en.id en.dist
                (lookupAdj adj en.id)
                { dists := st.dists, prev := st.prev,
                  visited := en.id :: st.visited, heap := rest }
              simpa using h
            have hU : en.id ∈ (adjUniverse adj start).dedup :=
              List.mem_dedup.mpr (hinv.heapU en hmem_en)
            have hsum : ((((adjUniverse adj start).dedup).filter
                  (fun u => decide (u ∉ en.id :: st.visited))).map
                  (fun u => (lookupAdj adj u).length + 1)).sum +
                ((lookupAdj adj en.id).length + 1) =
                ((((adjUniverse adj start).dedup).filter
                  (fun u => decide (u ∉ st.visited))).map
                  (fun u => (lookupAdj adj u).length + 1)).sum := by
              have h := sum_filter_visited_cons
                (fun u => (lookupAdj adj u).length + 1) st.visited en.id
                (adjUniverse adj start).dedup (List.nodup_dedup _) hU hvis
              simpa using h
            have hphi3 : dPhi adj start
                (relaxList acc en.id en.dist
                  { dists := st.dists, prev := st.prev,
                    visited := en.id :: st.visited, heap := rest }
                  (lookupAdj adj en.id)) < fuel := by
              unfold dPhi at hphi ⊢
              rw [hvis3]
              omega
            refine ih _ hinv3 hphi3 ?_
            intro t ht
            rw [hvis3]
            intro hc
            rcases List.mem_cons.mp hc with h | h
            · exact htgt (h ▸ ht)
            · exact htar t ht h

/-! ## Reconstruction, completeness and the initial state -/

theorem chain_reconstruct {adj : List (String × List AdjEntry)} {acc : Bool}
    {dists : String → Option ℚ} {prev : String → Option String}
    {visited : List String} {start : String}
    (hsp : prev start = none) (hs0 : dists start = some 0) :
    ∀ {n : Nat} {t : String}, Chain adj acc dists prev visited start n t →
    ∀ fuel, n ≤ fuel → ∀ accL : List String,
    ∃ p, reconstruct prev fuel t accL = p ++ accL ∧
      p.head? = some start ∧ p.getLast? = some t ∧
      ∀ dt, dists t = some dt → PathCost adj acc p dt := by
  intro n t h
  induction h with
  | base =>
    intro fuel _ accL
    refine ⟨[start], ?_, rfl, rfl, ?_⟩
    · cases fuel with
      | zero => rfl
      | succ f => simp [reconstruct, hsp]
    · intro dt hdt
      rw [hs0] at hdt
      have h0 : (0 : ℚ) = dt := Option.some.inj hdt
      exact h0 ▸ PathCost.single start
  | @step n u v du d e h1 h2 h3 h4 h5 h6 h7 hch ih =>
    intro fuel hf accL
    cases fuel with
    | zero => omega
    | succ f =>
      obtain ⟨p, hp, hh, hl, hc⟩ := ih f (by omega) (v :: accL)
      refine ⟨p ++ [v], ?_, ?_, ?_, ?_⟩
      · show reconstruct prev (f + 1) v accL = (p ++ [v]) ++ accL
        have hstep : reconstruct prev (f + 1) v accL =
            reconstruct prev f u (v :: accL) := by
          simp [reconstruct, h1]
        rw [hstep, hp]
        simp
      · cases p with
        | nil => simp at hh
        | cons a q => simpa using hh
      · simp
      · intro dt hdt
        rw [h6] at hdt
        have hdd : d = dt := Option.some.inj hdt
        subst hdd
        have hpc : PathCost adj acc p du := hc du h5
        have hs := pathCost_snoc hpc u hl e h3
        rw [h4] at hs
        rw [← h7]
        exact hs

theorem dinv_complete {adj : List (String × List AdjEntry)} {acc : Bool}
    {start : String} {st : DState} (hinv : DInv adj acc start st)
    (hheap : st.heap = []) :
    ∀ v c, Walk adj acc start v c → v ∈ st.visited := by
  have hstart : start ∈ st.visited := by
    by_cases h : start ∈ st.visited
    · exact h
    · obtain ⟨en, hen, _, _⟩ := hinv.unvisHeap start 0 hinv.startD h
      rw [hheap] at hen
      simp at hen
  have aux : ∀ u v c, Walk adj acc u v c → u ∈ st.visited →
      v ∈ st.visited := by
    intro u v c w
    induction w with
    | nil x => exact id
    | @cons w' c' u e he tail ih =>
      intro hu
      obtain ⟨du, d2, _, hd2, _⟩ := hinv.settledRelax u hu e he
      by_cases h : e.toId ∈ st.visited
      · exact ih h
      · obtain ⟨en, hen, _, _⟩ := hinv.unvisHeap e.toId d2 hd2 h
        rw [hheap] at hen
        simp at hen
  intro v c w
  exact aux start v c w hstart

theorem dinv_init (adj : List (String × List AdjEntry)) (acc : Bool)
    (start : String) :
    DInv adj acc start (dInit start) := by
  unfold dInit
  refine
    { hheap := ?_
      heapU := ?_
      visU := by intro v hv; simp at hv
      dSound := ?_
      heapGe := ?_
      unvisHeap := ?_
      settledMin := by intro v hv; simp at hv
      settledRelax := by intro u hu; simp at hu
      startD := by dsimp only; rw [if_pos rfl]
      startPrev := rfl
      chain := ?_ }
  · intro i hi hlen
    simp only [List.length_singleton] at hlen
    omega
  · intro en hen
    simp only [List.mem_singleton] at hen
    rw [hen]
    exact start_mem_universe adj start
  · intro v d hd
    dsimp only at hd
    by_cases hv : v = start
    · subst hv
      rw [if_pos rfl] at hd
      have h0 : (0 : ℚ) = d := Option.some.inj hd
      exact h0 ▸ Walk.nil v
    · rw [if_neg hv] at hd
      exact absurd hd (by simp)
  · intro en hen
    simp only [List.mem_singleton] at hen
    subst hen
    dsimp only
    exact ⟨0, by rw [if_pos rfl], le_refl 0⟩
  · intro v d hd _
    dsimp only at hd
    by_cases hv : v = start
    · subst hv
      rw [if_pos rfl] at hd
      have h0 : (0 : ℚ) = d := Option.some.inj hd
      exact ⟨⟨v, 0⟩, List.mem_singleton.mpr rfl, rfl, h0⟩
    · rw [if_neg hv] at hd
      exact absurd hd (by simp)
  · intro v d hd
    dsimp only at hd
    by_cases hv : v = start
    · subst hv
      exact ⟨0, le_refl 0, Chain.base⟩
    · rw [if_neg hv] at hd
      exact absurd hd (by simp)

theorem dPhi_init_lt (adj : List (String × List AdjEntry)) (start : String) :
    dPhi adj start (dInit start) < dijkstraFuel adj start := by
  unfold dPhi dijkstraFuel dInit
  dsimp only
  have h := sum_filter_le ((adjUniverse adj start).dedup)
    (fun u => (lookupAdj adj u).length + 1)
    (fun u => decide (u ∉ ([] : List String)))
  simp only [List.length_singleton]
  omega

/-! ## Branch equations for `calculatePath` -/

theorem resolveTargets_reset (st0 : EngineState) (endId : String) :
    resolveTargets { st0 with path := [], startNode := none } endId =
      resolveTargets st0 endId := rfl

theorem calculatePath_eq_noStart {st0 : EngineState} {startId endId : String}
    (hs : alGet st0.idMap startId = none) :
    calculatePath st0 startId endId =
      ([], { st0 with path := [], startNode := none }) := by
  unfold calculatePath
  dsimp only
  rw [hs]

theorem calculatePath_eq_noTargets {st0 : EngineState}
    {startId endId : String} {sNode : GNode}
    (hs : alGet st0.idMap startId = some sNode)
    (hts : resolveTargets st0 endId = []) :
    calculatePath st0 startId endId =
      ([], { st0 with path := [], startNode := none }) := by
  unfold calculatePath
  dsimp only
  rw [hs]
  dsimp only
  rw [resolveTargets_reset, hts]
  rfl

theorem calculatePath_run_none {st0 : EngineState}
    {startId endId : String} {sNode : GNode}
    (hs : alGet st0.idMap startId = some sNode)
    (hts : ¬ resolveTargets st0 endId = [])
    (hadj : st0.adj.isEmpty = false)
    (hres : (dloop st0.adj st0.accessibilityMode (resolveTargets st0 endId)
      (dijkstraFuel st0.adj sNode.id) (dInit sNode.id)).1 = none) :
    calculatePath st0 startId endId =
      ([], { st0 with path := [], startNode := none }) := by
  unfold calculatePath
  dsimp only
  rw [hs]
  dsimp only
  rw [resolveTargets_reset]
  rw [if_neg (by rw [List.isEmpty_iff]; exact hts)]
  rw [if_neg (by rw [hadj]; simp)]
  rw [hres]

theorem calculatePath_run_some {st0 : EngineState}
    {startId endId : String} {sNode : GNode} {t : String}
    (hs : alGet st0.idMap startId = some sNode)
    (hts : ¬ resolveTargets st0 endId = [])
    (hadj : st0.adj.isEmpty = false)
    (hres : (dloop st0.adj st0.accessibilityMode (resolveTargets st0 endId)
      (dijkstraFuel st0.adj sNode.id) (dInit sNode.id)).1 = some t) :
    calculatePath st0 startId endId =
      (reconstruct
          (dloop st0.adj st0.accessibilityMode (resolveTargets st0 endId)
            (dijkstraFuel st0.adj sNode.id) (dInit sNode.id)).2.prev
          (dloop st0.adj st0.accessibilityMode (resolveTargets st0 endId)
            (dijkstraFuel st0.adj sNode.id) (dInit sNode.id)).2.visited.length
          t [],
        { st0 with
          path := reconstruct
            (dloop st0.adj st0.accessibilityMode (resolveTargets st0 endId)
              (dijkstraFuel st0.adj sNode.id) (dInit sNode.id)).2.prev
            (dloop st0.adj st0.accessibilityMode (resolveTargets st0 endId)
              (dijkstraFuel st0.adj sNode.id)
              (dInit sNode.id)).2.visited.length
            t [],
          startNode := none }) := by
  unfold calculatePath
  dsimp only
  rw [hs]
  dsimp only
  rw [resolveTargets_reset]
  rw [if_neg (by rw [List.isEmpty_iff]; exact hts)]
  rw [if_neg (by rw [hadj]; simp)]
  rw [hres]

/-! ## Claim C1 -/

/-- C1: For every built graph whose effective edge weights are non-negative,
`calculatePath(startId, endId)` returns an ordered node-id path whose first
element is the start node, whose last element is a member of the resolved
target set, whose consecutive nodes are adjacent in the adjacency cache, and
whose total effective weight equals the minimum achievable from the start to
any target (early termination on the first popped target being correct); it
returns the empty sequence exactly when the start id does not resolve, the
target set is empty, or no target is reachable. -/
theorem calculatePath_correct (st0 : EngineState) (startId endId : String)
    (hadj : st0.adj.isEmpty = false)
    (hnn : AdjNonneg st0.adj st0.accessibilityMode) :
    ((calculatePath st0 startId endId).1 = [] ↔
      alGet st0.idMap startId = none ∨ resolveTargets st0 endId = [] ∨
      (∀ sNode, alGet st0.idMap startId = some sNode →
        ∀ t ∈ resolveTargets st0 endId,
          ¬ Reachable st0.adj st0.accessibilityMode sNode.id t)) ∧
    (∀ sNode, alGet st0.idMap startId = some sNode →
      (calculatePath st0 startId endId).1 ≠ [] →
      ∃ t ∈ resolveTargets st0 endId, ∃ dt,
        (calculatePath st0 startId endId).1.head? = some sNode.id ∧
        (calculatePath st0 startId endId).1.getLast? = some t ∧
        PathCost st0.adj st0.accessibilityMode
          (calculatePath st0 startId endId).1 dt ∧
        (calculatePath st0 startId endId).1.Chain'
          (fun a b => ∃ e ∈ lookupAdj st0.adj a, e.toId = b) ∧
        Walk st0.adj st0.accessibilityMode sNode.id t dt ∧
        ∀ t' ∈ resolveTargets st0 endId, ∀ c,
          Walk st0.adj st0.accessibilityMode sNode.id t' c → dt ≤ c) := by
  cases hs0 : alGet st0.idMap startId with
  | none =>
    rw [calculatePath_eq_noStart hs0]
    constructor
    · exact ⟨fun _ => Or.inl rfl, fun _ => rfl⟩
    · intro sNode hs hne
      exact absurd hs (by simp)
  | some sNode =>
    by_cases hts : resolveTargets st0 endId = []
    · rw [calculatePath_eq_noTargets hs0 hts]
      constructor
      · exact ⟨fun _ => Or.inr (Or.inl hts), fun _ => rfl⟩
      · intro _ _ hne
        exact absurd rfl hne
    · have hpost := dloop_spec (resolveTargets st0 endId) hnn
        (dijkstraFuel st0.adj sNode.id) (dInit sNode.id)
        (dinv_init st0.adj st0.accessibilityMode sNode.id)
        (dPhi_init_lt st0.adj sNode.id)
        (by intro t _ hc; simp [dInit] at hc)
      cases hres : (dloop st0.adj st0.accessibilityMode
          (resolveTargets st0 endId) (dijkstraFuel st0.adj sNode.id)
          (dInit sNode.id)).1 with
      | none =>
        rw [calculatePath_run_none hs0 hts hadj hres]
        obtain ⟨hinv', hheap', htar'⟩ := hpost.1 hres
        have hunreach : ∀ t ∈ resolveTargets st0 endId,
            ¬ Reachable st0.adj st0.accessibilityMode sNode.id t := by
          intro t ht hr
          obtain ⟨c, w⟩ := hr
          exact htar' t ht (dinv_complete hinv' hheap' t c w)
        constructor
        · refine ⟨fun _ => Or.inr (Or.inr ?_), fun _ => rfl⟩
          intro sNode' hs' t ht
          have hEq : sNode = sNode' := Option.some.inj hs'
          exact hEq ▸ hunreach t ht
        · intro _ _ hne
          exact absurd rfl hne
      | some t =>
        rw [calculatePath_run_some hs0 hts hadj hres]
        obtain ⟨htmem, hsp, hstart0, dt, hdt, hwalk, hmin, n, hn, hch⟩ :=
          hpost.2 t hres
        obtain ⟨p, hp, hh, hl, hc⟩ := chain_reconstruct hsp hstart0 hch
          (dloop st0.adj st0.accessibilityMode (resolveTargets st0 endId)
            (dijkstraFuel st0.adj sNode.id)
            (dInit sNode.id)).2.visited.length hn []
        rw [List.append_nil] at hp
        dsimp only
        rw [hp]
        have hpne : p ≠ [] := by
          intro h0
          rw [h0] at hh
          simp at hh
        constructor
        · constructor
          · intro h0
            exact absurd h0 hpne
          · intro hrhs
            exfalso
            rcases hrhs with h | h | h
            · simp at h
            · exact hts h
            · exact h sNode rfl t htmem ⟨dt, hwalk⟩
        · intro sNode' hs' _
          have hEq : sNode = sNode' := Option.some.inj hs'
          subst hEq
          exact ⟨t, htmem, dt, hh, hl, hc dt hdt,
            pathCost_chain' (hc dt hdt), hwalk, hmin⟩

def cWitNodeA : GNode :=
  { id := "1_a", originalId := "a", floorId := 1, type := "room",
    name := none, connectionId := none, x := 0, baseX := 0, localY := 0,
    y := 0 }

def cWitNodeB : GNode :=
  { id := "1_b", originalId := "b", floorId := 1, type := "room",
    name := none, connectionId := none, x := 0, baseX := 0, localY := 0,
    y := 0 }

/-- A tiny built state: two nodes on one floor joined by a 5-unit edge. -/
def cWitSt : EngineState :=
  { floorsConfig := [{ id := 1, imgWidth := 0, imgHeight := 0 }],
    idMap := [("1_a", cWitNodeA), ("1_b", cWitNodeB)],
    globalNodes := [cWitNodeA, cWitNodeB],
    globalEdges := [{ fromId := "1_a", toId := "1_b", dist := 5,
                      type := none, floorId := some 1 }],
    adj := [("1_a", [⟨"1_b", 5, none⟩]), ("1_b", [⟨"1_a", 5, none⟩])],
    floorVisuals := [], totalHeight := 0,
    accessibilityMode := false, path := [], startNode := none }

/-- Witness for C1 at the two-node state. -/
theorem calculatePath_correct_witness :
    cWitSt.adj.isEmpty = false ∧
    AdjNonneg cWitSt.adj cWitSt.accessibilityMode ∧
    (((calculatePath cWitSt "1_a" "1_b").1 = [] ↔
      alGet cWitSt.idMap "1_a" = none ∨ resolveTargets cWitSt "1_b" = [] ∨
      (∀ sNode, alGet cWitSt.idMap "1_a" = some sNode →
        ∀ t ∈ resolveTargets cWitSt "1_b",
          ¬ Reachable cWitSt.adj cWitSt.accessibilityMode sNode.id t)) ∧
    (∀ sNode, alGet cWitSt.idMap "1_a" = some sNode →
      (calculatePath cWitSt "1_a" "1_b").1 ≠ [] →
      ∃ t ∈ resolveTargets cWitSt "1_b", ∃ dt,
        (calculatePath cWitSt "1_a" "1_b").1.head? = some sNode.id ∧
        (calculatePath cWitSt "1_a" "1_b").1.getLast? = some t ∧
        PathCost cWitSt.adj cWitSt.accessibilityMode
          (calculatePath cWitSt "1_a" "1_b").1 dt ∧
        (calculatePath cWitSt "1_a" "1_b").1.Chain'
          (fun a b => ∃ e ∈ lookupAdj cWitSt.adj a, e.toId = b) ∧
        Walk cWitSt.adj cWitSt.accessibilityMode sNode.id t dt ∧
        ∀ t' ∈ resolveTargets cWitSt "1_b", ∀ c,
          Walk cWitSt.adj cWitSt.accessibilityMode sNode.id t' c → dt ≤ c)) :=
  ⟨rfl, by unfold AdjNonneg; decide,
    calculatePath_correct cWitSt "1_a" "1_b" rfl
      (by unfold AdjNonneg; decide)⟩

/-! ## Claim C3: effective weights and Scenario B -/

def scnBNodeA : GNode :=
  { id := "A", originalId := "A", floorId := 1, type := "room",
    name := none, connectionId := none, x := 0, baseX := 0, localY := 0,
    y := 0 }

def scnBNodeB : GNode :=
  { id := "B", originalId := "B", floorId := 1, type := "room",
    name := none, connectionId := none, x := 0, baseX := 0, localY := 0,
    y := 0 }

/-- Scenario B: accessibility mode ON, one elevator edge (base dist 100) and
one stairs edge (base dist 50) between the same endpoints. -/
def scnBSt : EngineState :=
  { floorsConfig := [{ id := 1, imgWidth := 0, imgHeight := 0 }],
    idMap := [("A", scnBNodeA), ("B", scnBNodeB)],
    globalNodes := [scnBNodeA, scnBNodeB],
    globalEdges := [],
    adj := [("A", [⟨"B", 100, some "elevator"⟩, ⟨"B", 50, some "stairs"⟩]),
            ("B", [⟨"A", 100, some "elevator"⟩, ⟨"A", 50, some "stairs"⟩])],
    floorVisuals := [], totalHeight := 0, accessibilityMode := true,
    path := [], startNode := none }

/-- C3: the effective weight of every adjacency edge during planning is:
accessibility ON — base dist × 0.1 for elevator edges, base dist + 50000 for
stairs edges, the unchanged base dist otherwise; accessibility OFF — base
dist + 2000 for elevator edges, the unchanged base dist otherwise.  In
Scenario B the planner reaches the target with total effective weight 10, the
elevator edge's weight (10 < 50 + 50000). -/
theorem effWeight_spec_and_scenarioB :
    (∀ e : AdjEntry,
      (e.type = some "elevator" → effWeight true e = e.dist * (1 / 10)) ∧
      (e.type = some "stairs" → effWeight true e = e.dist + 50000) ∧
      (e.type ≠ some "elevator" → e.type ≠ some "stairs" →
        effWeight true e = e.dist) ∧
      (e.type = some "elevator" → effWeight false e = e.dist + 2000) ∧
      (e.type ≠ some "elevator" → effWeight false e = e.dist)) ∧
    effWeight true ⟨"B", 100, some "elevator"⟩ = 10 ∧
    effWeight true ⟨"B", 50, some "stairs"⟩ = 50050 ∧
    (10 : ℚ) < 50050 ∧
    (calculatePath scnBSt "A" "B").1 = ["A", "B"] ∧
    (dloop scnBSt.adj true ["B"] (dijkstraFuel scnBSt.adj "A")
      (dInit "A")).2.dists "B" = some 10 := by
  refine ⟨?_, by decide, by decide, by decide, by decide, by decide⟩
  intro e
  refine ⟨?_, ?_, ?_, ?_, ?_⟩
  · intro h
    simp [effWeight, h]
  · intro h
    simp [effWeight, h]
  · intro h1 h2
    simp [effWeight, h1, h2]
  · intro h
    simp [effWeight, h]
  · intro h
    simp [effWeight, h]

/-- Witness for C3's weight formulas at a concrete elevator entry. -/
theorem effWeight_spec_and_scenarioB_witness :
    (⟨"x", 7, some "elevator"⟩ : AdjEntry).type = some "elevator" ∧
    effWeight true ⟨"x", 7, some "elevator"⟩ =
      (⟨"x", 7, some "elevator"⟩ : AdjEntry).dist * (1 / 10) :=
  ⟨rfl, (effWeight_spec_and_scenarioB.1 ⟨"x", 7, some "elevator"⟩).1 rfl⟩

/-! ## Claim C2: the `barrierFreeBlocked` exclusion is dead code -/

/-- One floor, two rooms, and a single connecting edge flagged
`barrierFreeBlocked`. -/
def scnCCfg : List (FloorConf × FloorData) :=
  [({ id := 1, imgWidth := 0, imgHeight := 0 },
    { nodes := [{ id := "a", x := 10, y := 20, type := "room",
                  name := none, connectionId := none },
                { id := "b", x := 30, y := 40, type := "room",
                  name := none, connectionId := none }],
      edges := [{ fromId := "a", toId := "b", dist := some 5,
                  barrierFreeBlocked := true }] })]

/-- The engine state after loading that data, building the graph and turning
accessibility mode on. -/
def scnCSt : EngineState :=
  { buildGlobalGraph (loadData scnCCfg) with accessibilityMode := true }

/-- C2 (code bug): with accessibility mode ON, an edge flagged
`barrierFreeBlocked` is NOT excluded from the search.  `loadAllData` stores
edge records without the flag and the adjacency cache entries carry only
`{to, dist, type}`, so `if (edge.barrierFreeBlocked) continue` reads an
absent property and never skips: the only route here uses the flagged edge,
yet the planner returns it instead of the empty path the claimed exclusion
would produce. -/
theorem barrierFreeBlocked_not_excluded :
    (∀ fd ∈ scnCCfg, ∀ e ∈ fd.2.edges, e.barrierFreeBlocked = true) ∧
    scnCSt.accessibilityMode = true ∧
    lookupAdj scnCSt.adj "1_a" = [⟨"1_b", 5, none⟩] ∧
    (calculatePath scnCSt "1_a" "1_b").1 = ["1_a", "1_b"] ∧
    (calculatePath scnCSt "1_a" "1_b").1 ≠ [] := by
  refine ⟨by decide, by decide, by decide, by decide, by decide⟩

/-! ## Claim C10: the stored route state is reset on every plan call -/

/-- C10: every `calculatePath` call stores exactly the returned path (the
previous `this.path` is discarded, also on failed plans) and clears the
manual start marker. -/
theorem calculatePath_resets_state (st0 : EngineState)
    (startId endId : String) :
    (calculatePath st0 startId endId).2.path =
      (calculatePath st0 startId endId).1 ∧
    (calculatePath st0 startId endId).2.startNode = none := by
  unfold calculatePath
  dsimp only
  refine ⟨?_, ?_⟩ <;> (repeat' split) <;> rfl

/-! ## IEEE-style JS numbers for the fit operations (C9) -/

/-- A JS number: NaN, the two infinities, or a finite value. -/
inductive JSNum
  | nan
  | inf
  | ninf
  | num (q : ℚ)
deriving DecidableEq

namespace JSNum

def neg : JSNum → JSNum
  | nan => nan
  | inf => ninf
  | ninf => inf
  | num q => num (-q)

def add : JSNum → JSNum → JSNum
  | nan, _ => nan
  | _, nan => nan
  | inf, ninf => nan
  | ninf, inf => nan
  | inf, _ => inf
  | _, inf => inf
  | ninf, _ => ninf
  | _, ninf => ninf
  | num a, num b => num (a + b)

def sub (a b : JSNum) : JSNum := a.add b.neg

def mul : JSNum → JSNum → JSNum
  | nan, _ => nan
  | _, nan => nan
  | inf, inf => inf
  | inf, ninf => ninf
  | ninf, inf => ninf
  | ninf, ninf => inf
  | inf, num b => if 0 < b then inf else if b < 0 then ninf else nan
  | num a, inf => if 0 < a then inf else if a < 0 then ninf else nan
  | ninf, num b => if 0 < b then ninf else if b < 0 then inf else nan
  | num a, ninf => if 0 < a then ninf else if a < 0 then inf else nan
  | num a, num b => num (a * b)

def div : JSNum → JSNum → JSNum
  | nan, _ => nan
  | _, nan => nan
  | inf, inf => nan
  | inf, ninf => nan
  | ninf, inf => nan
  | ninf, ninf => nan
  | inf, num b => if b < 0 then ninf else inf
  | ninf, num b => if b < 0 then inf else ninf
  | num _, inf => num 0
  | num _, ninf => num 0
  | num a, num b =>
    if b = 0 then (if 0 < a then inf else if a < 0 then ninf else nan)
    else num (a / b)

/-- `Math.min` (NaN-propagating). -/
def minJ : JSNum → JSNum → JSNum
  | nan, _ => nan
  | _, nan => nan
  | ninf, _ => ninf
  | _, ninf => ninf
  | inf, b => b
  | a, inf => a
  | num a, num b => num (min a b)

/-- `Math.max` (NaN-propagating). -/
def maxJ : JSNum → JSNum → JSNum
  | nan, _ => nan
  | _, nan => nan
  | inf, _ => inf
  | _, inf => inf
  | ninf, b => b
  | a, ninf => a
  | num a, num b => num (max a b)

/-- IEEE `<` (false whenever either side is NaN). -/
def ltJ : JSNum → JSNum → Bool
  | nan, _ => false
  | _, nan => false
  | inf, _ => false
  | ninf, inf => true
  | ninf, ninf => false
  | ninf, num _ => true
  | num _, inf => true
  | num _, ninf => false
  | num a, num b => decide (a < b)

/-- IEEE `<=` (false whenever either side is NaN). -/
def leJ : JSNum → JSNum → Bool
  | nan, _ => false
  | _, nan => false
  | ninf, _ => true
  | _, ninf => false
  | _, inf => true
  | inf, num _ => false
  | num a, num b => decide (a ≤ b)

/-- `isFinite(x) && !isNaN(x)`. -/
def isFiniteJS : JSNum → Bool
  | num _ => true
  | _ => false

end JSNum

/-- A d3 zoom transform: scale `k`, translation `(x, y)`. -/
structure JSTransform where
  k : JSNum
  x : JSNum
  y : JSNum
deriving DecidableEq

structure JSPoint where
  x : JSNum
  y : JSNum
deriving DecidableEq

/-- `fitBounds(nodes)`: the transform left in place after the call (the prior
transform when the call returns early).  In this model every coordinate is a
JS number, so the `typeof n.x === 'number'` guard is always true (NaN and
Infinity are numbers in JS). -/
def fitBounds (canvasW canvasH : JSNum) (prior : JSTransform)
    (nodes : List JSPoint) : JSTransform :=
  if nodes.isEmpty then prior
  else
    let bb := nodes.foldl
      (fun (b : JSNum × JSNum × JSNum × JSNum) n =>
        (if JSNum.ltJ n.x b.1 then n.x else b.1,
         if JSNum.ltJ b.2.1 n.x then n.x else b.2.1,
         if JSNum.ltJ n.y b.2.2.1 then n.y else b.2.2.1,
         if JSNum.ltJ b.2.2.2 n.y then n.y else b.2.2.2))
      (JSNum.inf, JSNum.ninf, JSNum.inf, JSNum.ninf)
    if bb.1 = JSNum.inf ∨ bb.2.1 = JSNum.ninf then prior
    else
      let targetWidth0 := (bb.2.1.sub bb.1).add (JSNum.num 200)
      let targetWidth := if targetWidth0.leJ (JSNum.num 0)
        then JSNum.num 500 else targetWidth0
      let targetHeight0 := (bb.2.2.2.sub bb.2.2.1).add (JSNum.num 200)
      let targetHeight := if targetHeight0.leJ (JSNum.num 0)
        then JSNum.num 500 else targetHeight0
      let centerX := (bb.1.add bb.2.1).div (JSNum.num 2)
      let centerY := (bb.2.2.1.add bb.2.2.2).div (JSNum.num 2)
      let scaleX := canvasW.div targetWidth
      let scaleY := canvasH.div targetHeight
      let k0 := scaleX.minJ scaleY
      let k1 := if k0.isFiniteJS then k0 else JSNum.num 1
      let k := (k1.maxJ (JSNum.num (1 / 5))).minJ (JSNum.num 3)
      let tX := (canvasW.div (JSNum.num 2)).sub (centerX.mul k)
      let tY := (canvasH.div (JSNum.num 2)).sub (centerY.mul k)
      if tX.isFiniteJS && tY.isFiniteJS then ⟨k, tX, tY⟩ else prior

/-- The transform computed and applied by `fitToPath(pathNodes)` (the prior
transform only when the path is empty).  There is no finiteness check on this
code path, and `Math.min`/`Math.max` propagate NaN. -/
def fitToPathTransform (canvasW canvasH : JSNum) (prior : JSTransform)
    (getN : String → Option JSPoint) (pathNodes : List String) : JSTransform :=
  if pathNodes.isEmpty then prior
  else
    let bb := pathNodes.foldl
      (fun (b : JSNum × JSNum × JSNum × JSNum) id =>
        match getN id with
        | none => b
        | some n =>
          (b.1.minJ n.x, b.2.1.minJ n.y, b.2.2.1.maxJ n.x, b.2.2.2.maxJ n.y))
      (JSNum.inf, JSNum.inf, JSNum.ninf, JSNum.ninf)
    let width := (bb.2.2.1.sub bb.1).add (JSNum.num 200)
    let height := (bb.2.2.2.sub bb.2.1).add (JSNum.num 200)
    let cx := (bb.1.add bb.2.2.1).div (JSNum.num 2)
    let cy := (bb.2.1.add bb.2.2.2).div (JSNum.num 2)
    let scaleX := canvasW.div width
    let scaleY := canvasH.div height
    let scale := (scaleX.minJ scaleY).minJ (JSNum.num 2)
    let scale2 := scale.maxJ (JSNum.num (1 / 5))
    let tX := (canvasW.div (JSNum.num 2)).sub (cx.mul scale2)
    let tY := (canvasH.div (JSNum.num 2)).sub (cy.mul scale2)
    ⟨scale2, tX, tY⟩

theorem clamp_finite (k1 : JSNum) (h : k1.isFiniteJS = true) :
    ((k1.maxJ (JSNum.num (1 / 5))).minJ (JSNum.num 3)).isFiniteJS = true := by
  cases k1 with
  | nan => simp [JSNum.isFiniteJS] at h
  | inf => simp [JSNum.isFiniteJS] at h
  | ninf => simp [JSNum.isFiniteJS] at h
  | num q => rfl

theorem fit_apply_case (prior : JSTransform) (k1 a b : JSNum)
    (hk : k1.isFiniteJS = true) :
    (if a.isFiniteJS && b.isFiniteJS
      then (⟨(k1.maxJ (JSNum.num (1 / 5))).minJ (JSNum.num 3), a, b⟩ :
        JSTransform)
      else prior) = prior ∨
    ((if a.isFiniteJS && b.isFiniteJS
      then (⟨(k1.maxJ (JSNum.num (1 / 5))).minJ (JSNum.num 3), a, b⟩ :
        JSTransform)
      else prior).k.isFiniteJS = true ∧
     (if a.isFiniteJS && b.isFiniteJS
      then (⟨(k1.maxJ (JSNum.num (1 / 5))).minJ (JSNum.num 3), a, b⟩ :
        JSTransform)
      else prior).x.isFiniteJS = true ∧
     (if a.isFiniteJS && b.isFiniteJS
      then (⟨(k1.maxJ (JSNum.num (1 / 5))).minJ (JSNum.num 3), a, b⟩ :
        JSTransform)
      else prior).y.isFiniteJS = true) := by
  split
  next h =>
    rw [Bool.and_eq_true] at h
    exact Or.inr ⟨clamp_finite _ hk, h.1, h.2⟩
  next => exact Or.inl rfl

/-- C9 (corrected): `fitBounds` never applies a non-finite transform — a
non-finite computed translation aborts the fit and retains the prior
transform, and the applied scale is always finite (a non-finite scale is
repaired to 1 and clamped rather than aborting).  `fitToPath`, however,
performs NO finiteness check: with a single path node whose x-coordinate is
NaN, it applies a transform whose scale and translation are all NaN instead
of retaining the prior transform, refuting the claim for that fit
operation. -/
theorem fit_nonfinite_behavior :
    (∀ (canvasW canvasH : JSNum) (prior : JSTransform)
        (nodes : List JSPoint),
      fitBounds canvasW canvasH prior nodes = prior ∨
      ((fitBounds canvasW canvasH prior nodes).k.isFiniteJS = true ∧
       (fitBounds canvasW canvasH prior nodes).x.isFiniteJS = true ∧
       (fitBounds canvasW canvasH prior nodes).y.isFiniteJS = true)) ∧
    (fitToPathTransform (JSNum.num 800) (JSNum.num 600) ⟨JSNum.num 1,
        JSNum.num 0, JSNum.num 0⟩
      (fun i => if i = "a" then some ⟨JSNum.nan, JSNum.num 0⟩ else none)
      ["a"] =
      ⟨JSNum.nan, JSNum.nan, JSNum.nan⟩) ∧
    (JSNum.nan.isFiniteJS = false) := by
  refine ⟨?_, by decide, rfl⟩
  intro canvasW canvasH prior nodes
  unfold fitBounds
  by_cases h1 : nodes.isEmpty = true
  · rw [if_pos h1]
    exact Or.inl rfl
  · rw [if_neg h1]
    dsimp only
    split
    · exact Or.inl rfl
    · exact fit_apply_case prior _ _ _
        (by repeat' split
            all_goals first | assumption | rfl)

/-- Counterexample to C9 as stated: `fitToPath` on a path whose single node
has a NaN x-coordinate applies an all-NaN transform instead of aborting and
retaining the prior transform. -/
theorem fitToPath_nonfinite_counterexample :
    (fitToPathTransform (JSNum.num 800) (JSNum.num 600)
        ⟨JSNum.num 1, JSNum.num 0, JSNum.num 0⟩
        (fun i => if i = "a" then some ⟨JSNum.nan, JSNum.num 0⟩ else none)
        ["a"]).k.isFiniteJS = false ∧
    fitToPathTransform (JSNum.num 800) (JSNum.num 600)
        ⟨JSNum.num 1, JSNum.num 0, JSNum.num 0⟩
        (fun i => if i = "a" then some ⟨JSNum.nan, JSNum.num 0⟩ else none)
        ["a"] ≠ ⟨JSNum.num 1, JSNum.num 0, JSNum.num 0⟩ := by
  exact ⟨by decide, by decide⟩

end SchoolMap
